import Mathlib

/-!
Verification development for the LangBois storage utilities
(`src/python/utilities/api_key_manager.py` and
`src/python/utilities/config_manager.py`).

The two Python modules are shallowly embedded here:

* File systems under a storage root are association lists from file name to
  file content.  Python `dict`s (and file maps) are association lists with
  first-match lookup and update-in-place-or-append assignment, matching
  CPython's insertion-ordered dictionaries and file overwrites.
* The external `cryptography.fernet.Fernet` cipher is modelled by its
  contract: a ciphertext token records the key id it was produced under and
  the exact plaintext; `decrypt` succeeds exactly on tokens produced under
  the same key and fails (`InvalidToken`) on everything else.  `json` /
  `yaml` serialization of structured values is modelled likewise by
  provenance-tagged file contents whose decoders invert the encoders; the
  `corrupt` content constructor stands for stored bytes that are not valid
  under any codec or cipher.
* Fallible Python code returns `Except PyErr`; a Python function that
  returns `None` is modelled with `Option`.
* The in-place mutation performed by `ConfigManager.merge_configs` /
  `deep_merge` is modelled twice: as a pure value-level recursion
  (`deep_merge`, the function's input/output behaviour on non-aliased
  dictionaries) and as a small-step interpreter over an explicit heap of
  Python dictionary objects (`dmGo`, `merge_configs_impl`), which makes the
  sharing created by `base.copy()` and the in-place updates observable.
-/

namespace LangBois

/-- Association-list lookup, first match wins: Python `d[k]` /
`os.path.exists` over our file maps. -/
def alookup {α β : Type} [DecidableEq α] (k : α) : List (α × β) → Option β
  | [] => none
  | (k', v') :: rest => if k' = k then some v' else alookup k rest

/-- Association-list assignment: Python `d[k] = v` updates an existing
binding in place (keeping its position) or appends a new one, matching
insertion-ordered dictionaries and file overwrites. -/
def aset {α β : Type} [DecidableEq α] (k : α) (v : β) : List (α × β) → List (α × β)
  | [] => [(k, v)]
  | (k', v') :: rest => if k' = k then (k, v) :: rest else (k', v') :: aset k v rest

theorem alookup_aset_self {α β : Type} [DecidableEq α] (k : α) (v : β) (d : List (α × β)) :
    alookup k (aset k v d) = some v := by
  induction d with
  | nil => simp [aset, alookup]
  | cons hd tl ih =>
    obtain ⟨k', v'⟩ := hd
    by_cases h : k' = k <;> simp [aset, alookup, h, ih]

theorem alookup_aset_ne {α β : Type} [DecidableEq α] {k k' : α} (h : k' ≠ k) (v : β) (d : List (α × β)) :
    alookup k (aset k' v d) = alookup k d := by
  induction d with
  | nil => simp [aset, alookup, h]
  | cons hd tl ih =>
    obtain ⟨k'', v''⟩ := hd
    by_cases h2 : k'' = k' <;> by_cases h3 : k'' = k <;>
      simp_all [aset, alookup]

theorem alookup_filter {β : Type} (q : String → Bool) (fs : List (String × β)) (p : String) :
    alookup p (fs.filter (fun pc => q pc.1)) =
      if q p = true then alookup p fs else none := by
  induction fs with
  | nil => simp [alookup]
  | cons hd tl ih =>
    obtain ⟨k, v⟩ := hd
    by_cases hq : q k = true <;> by_cases hk : k = p <;>
      simp_all [alookup, List.filter_cons]

/-- Structured values handled by the configuration store: JSON/YAML trees of
mappings with string keys, sequences, and scalar leaves.  Mappings are kept
as insertion-ordered association lists, like Python dictionaries. -/
inductive Json where
  | num (n : Int)
  | str (s : String)
  | boolean (b : Bool)
  | arr (xs : List Json)
  | obj (fields : List (String × Json))

/-- View of an optional value as a mapping: Python
`key in dict1 and isinstance(dict1[key], dict)`. -/
def asObj : Option Json → Option (List (String × Json))
  | some (Json.obj o) => some o
  | _ => none

/-- Value-level recursion of `ConfigManager.merge_configs.deep_merge`: for
each `(key, value)` of `dict2` in order, recurse when both sides hold a
mapping under `key`, otherwise assign the overlay value.  This is the
input/output behaviour of the Python function on non-aliased dictionaries;
the heap-level interpreter below exhibits its in-place mutation. -/
def deep_merge : List (String × Json) → List (String × Json) → List (String × Json)
  | d1, [] => d1
  | d1, (k, Json.obj o2) :: rest =>
    (match asObj (alookup k d1) with
     | some o1 => deep_merge (aset k (Json.obj (deep_merge o1 o2)) d1) rest
     | none => deep_merge (aset k (Json.obj o2) d1) rest)
  | d1, (k, v) :: rest => deep_merge (aset k v d1) rest
termination_by _ d2 => sizeOf d2
decreasing_by
  all_goals simp_wf
  all_goals omega

/-- One iteration of the `for key, value in dict2.items()` loop body. -/
def mergeStep (d1 : List (String × Json)) (k : String) (v : Json) : List (String × Json) :=
  match v with
  | Json.obj o2 =>
    (match asObj (alookup k d1) with
     | some o1 => aset k (Json.obj (deep_merge o1 o2)) d1
     | none => aset k (Json.obj o2) d1)
  | _ => aset k v d1

theorem deep_merge_cons (d1 : List (String × Json)) (k : String) (v : Json)
    (rest : List (String × Json)) :
    deep_merge d1 ((k, v) :: rest) = deep_merge (mergeStep d1 k v) rest := by
  cases v with
  | obj o2 =>
    simp only [deep_merge, mergeStep]
    cases asObj (alookup k d1) <;> simp
  | num n => simp [deep_merge, mergeStep]
  | str s => simp [deep_merge, mergeStep]
  | boolean b => simp [deep_merge, mergeStep]
  | arr xs => simp [deep_merge, mergeStep]

theorem alookup_mergeStep_ne {d1 : List (String × Json)} {k k' : String} (h : k' ≠ k) (v : Json) :
    alookup k (mergeStep d1 k' v) = alookup k d1 := by
  cases v <;> simp only [mergeStep]
  case obj o2 =>
    cases asObj (alookup k' d1) <;> simp [alookup_aset_ne h]
  all_goals simp [alookup_aset_ne h]

theorem alookup_deep_merge_not_mem {k : String} (d2 : List (String × Json))
    (h : k ∉ d2.map Prod.fst) (d1 : List (String × Json)) :
    alookup k (deep_merge d1 d2) = alookup k d1 := by
  induction d2 generalizing d1 with
  | nil => simp [deep_merge]
  | cons hd tl ih =>
    obtain ⟨k', v⟩ := hd
    simp only [List.map_cons, List.mem_cons] at h
    push_neg at h
    rw [deep_merge_cons, ih h.2, alookup_mergeStep_ne (Ne.symm h.1)]

/-- Lookup characterisation of `deep_merge`, for overlays without duplicate
keys (Python dictionaries cannot carry duplicates): a key present in the
overlay merges recursively when both sides hold mappings and is replaced by
the overlay value otherwise; a key absent from the overlay keeps its base
binding. -/
theorem alookup_deep_merge (d2 : List (String × Json)) (h : (d2.map Prod.fst).Nodup)
    (d1 : List (String × Json)) (k : String) :
    alookup k (deep_merge d1 d2) =
      match alookup k d2, alookup k d1 with
      | some (Json.obj o2), some (Json.obj o1) => some (Json.obj (deep_merge o1 o2))
      | some v, _ => some v
      | none, _ => alookup k d1 := by
  induction d2 generalizing d1 with
  | nil => simp [deep_merge, alookup]
  | cons hd tl ih =>
    obtain ⟨k', v⟩ := hd
    simp only [List.map_cons, List.nodup_cons] at h
    rw [deep_merge_cons]
    by_cases hk : k' = k
    · subst hk
      rw [alookup_deep_merge_not_mem tl h.1]
      simp only [alookup, if_pos rfl]
      cases v with
      | obj o2 =>
        simp only [mergeStep]
        cases hl : alookup k' d1 with
        | none => simp [asObj, alookup_aset_self]
        | some w => cases w <;> simp [asObj, alookup_aset_self]
      | num n => simp [mergeStep, alookup_aset_self]
      | str s => simp [mergeStep, alookup_aset_self]
      | boolean b => simp [mergeStep, alookup_aset_self]
      | arr xs => simp [mergeStep, alookup_aset_self]
    · rw [ih h.2, alookup_mergeStep_ne hk]
      simp [alookup, hk]

/-! Heap-level model of Python dictionary objects, used to observe the
aliasing and in-place mutation performed by `merge_configs`. -/

/-- Python runtime value: scalars are immutable, dictionaries live on the
heap and are passed by reference. -/
inductive HVal where
  | int (n : Int)
  | str (s : String)
  | boolean (b : Bool)
  | noneV
  | ref (a : Nat)
deriving DecidableEq

/-- Heap of dictionary objects: address to entry list, plus the next fresh
address. -/
structure Heap where
  store : List (Nat × List (String × HVal))
  next : Nat
deriving DecidableEq

/-- Read a dictionary object (empty for a dangling address, which no run in
this development produces). -/
def heapGetD (h : Heap) (a : Nat) : List (String × HVal) :=
  match alookup a h.store with
  | some d => d
  | none => []

/-- `dict_at_a[k] = v`: in-place update of the dictionary object at `a`. -/
def heapSetKey (h : Heap) (a : Nat) (k : String) (v : HVal) : Heap :=
  match alookup a h.store with
  | some d => { h with store := aset a (aset k v d) h.store }
  | none => h

/-- Allocate a fresh dictionary object holding the given entries (used for
`base.copy()`, which copies the entry list shallowly: entry values that are
references keep pointing at the shared nested objects). -/
def allocDict (h : Heap) (d : List (String × HVal)) : Heap :=
  { store := h.store ++ [(h.next, d)], next := h.next + 1 }

/-- Heap-level interpreter of `deep_merge(dict1, dict2)`: iterates over the
snapshot `items` of `dict2.items()`, mutating the object at `a1` in place.
`fuel` bounds the recursion depth (Python would not terminate on cyclic
dictionaries either); every run in this development completes within its
fuel. -/
def dmGo : Nat → Heap → Nat → List (String × HVal) → Option Heap
  | 0, _, _, _ => none
  | _ + 1, h, _, [] => some h
  | fuel + 1, h, a1, (k, v) :: rest =>
    match v, alookup k (heapGetD h a1) with
    | HVal.ref a2k, some (HVal.ref a1k) =>
      (match dmGo fuel h a1k (heapGetD h a2k) with
       | none => none
       | some h' => dmGo fuel h' a1 rest)
    | _, _ => dmGo fuel (heapSetKey h a1 k v) a1 rest

/-- Heap-level `merge_configs` body on already-decoded dictionaries:
`deep_merge(base.copy(), overlay)` — a shallow copy of the base object is
allocated, then merged in place against the overlay; the copy's address is
returned. -/
def merge_configs_impl (fuel : Nat) (h : Heap) (aBase aOver : Nat) : Option (Heap × Nat) :=
  let aCopy := h.next
  let h1 := allocDict h (heapGetD h aBase)
  match dmGo fuel h1 aCopy (heapGetD h aOver) with
  | none => none
  | some h2 => some (h2, aCopy)

/-! Layout relation: which pure structured values a heap of Python
dictionary objects represents, together with the exact set of addresses
(the footprint) used.  Python lists are heap objects too, but `deep_merge`
never enters or writes them — like scalars they are only ever assigned
wholesale — so the layout covers trees of scalars and mappings, which is
where all merging behaviour lives. -/

/-- Two heaps agree on the bindings of every address in `A`. -/
def agreeOn (h h2 : Heap) (A : Finset Nat) : Prop :=
  ∀ c ∈ A, alookup c h2.store = alookup c h.store

mutual

/-- Heap value `hv` lays out the pure value `v` with footprint `A` (the set
of addresses of the dictionary objects realising `v`). -/
def LayV (h : Heap) (hv : HVal) : Json → Finset Nat → Prop
  | Json.num m, A => hv = HVal.int m ∧ A = ∅
  | Json.str t, A => hv = HVal.str t ∧ A = ∅
  | Json.boolean c, A => hv = HVal.boolean c ∧ A = ∅
  | Json.arr _, _ => False
  | Json.obj fields, A =>
    ∃ a es A2, hv = HVal.ref a ∧ alookup a h.store = some es ∧
      LayEsK h [] es fields A2 ∧ a ∉ A2 ∧ A = insert a A2
termination_by v _ => sizeOf v
decreasing_by
  all_goals simp_wf
  all_goals omega

/-- Entry lists `es` (heap side) and `bs` (pure side) correspond position
by position with equal, pairwise-distinct keys; entries whose key lies in
`K` are exempt (used while a merge loop is part-way through `dict2`'s
keys) and contribute no footprint; the remaining entries' footprints are
pairwise disjoint and union to `A`. -/
def LayEsK (h : Heap) (K : List String) :
    List (String × HVal) → List (String × Json) → Finset Nat → Prop
  | [], [], A => A = ∅
  | (k, hv) :: es, (k2, v) :: bs, A =>
    k2 = k ∧ k ∉ es.map Prod.fst ∧
    (if k ∈ K then LayEsK h K es bs A
     else ∃ A1 A2, LayV h hv v A1 ∧ LayEsK h K es bs A2 ∧ Disjoint A1 A2 ∧ A = A1 ∪ A2)
  | [], _ :: _, _ => False
  | _ :: _, [], _ => False
termination_by es bs _ => sizeOf bs
decreasing_by
  all_goals simp_wf
  all_goals omega

end

/-- The dictionary object at address `a` lays out the pure mapping `bs`
with footprint `A`, entries with keys in `K` exempt. -/
def LayD (h : Heap) (K : List String) (a : Nat) (bs : List (String × Json))
    (A : Finset Nat) : Prop :=
  ∃ es A2, alookup a h.store = some es ∧ LayEsK h K es bs A2 ∧ a ∉ A2 ∧ A = insert a A2

theorem LayV_obj (h : Heap) (hv : HVal) (fields : List (String × Json)) (A : Finset Nat) :
    LayV h hv (Json.obj fields) A ↔ ∃ a, hv = HVal.ref a ∧ LayD h [] a fields A := by
  simp only [LayV, LayD]
  constructor
  · rintro ⟨a, es, A2, rfl, hl, hE, hn, rfl⟩
    exact ⟨a, rfl, es, A2, hl, hE, hn, rfl⟩
  · rintro ⟨a, rfl, es, A2, hl, hE, hn, rfl⟩
    exact ⟨a, es, A2, rfl, hl, hE, hn, rfl⟩

theorem LayEsK_keys (h : Heap) (K : List String) :
    ∀ (es : List (String × HVal)) (bs : List (String × Json)) (A : Finset Nat),
    LayEsK h K es bs A → bs.map Prod.fst = es.map Prod.fst := by
  intro es
  induction es with
  | nil => intro bs A hL; cases bs with
    | nil => rfl
    | cons hd tl => simp [LayEsK] at hL
  | cons hd tl ih =>
    obtain ⟨k, hv⟩ := hd
    intro bs A hL
    cases bs with
    | nil => simp [LayEsK] at hL
    | cons hd2 tl2 =>
      obtain ⟨k2, v⟩ := hd2
      simp only [LayEsK] at hL
      obtain ⟨heq, hnd, hrest⟩ := hL
      subst heq
      by_cases hk : k2 ∈ K
      · rw [if_pos hk] at hrest
        simp [ih tl2 A hrest]
      · rw [if_neg hk] at hrest
        obtain ⟨A1, A2, _, hE, _, _⟩ := hrest
        simp [ih tl2 A2 hE]

theorem agreeOn_mono {h h2 : Heap} {A B : Finset Nat} (hsub : B ⊆ A)
    (hag : agreeOn h h2 A) : agreeOn h h2 B :=
  fun c hc => hag c (hsub hc)

/-- Layouts depend only on the bindings of their footprint: a heap change
outside `A` preserves every layout with footprint `A`. -/
theorem Lay_frame (n : Nat) :
    (∀ (h h2 : Heap) (hv : HVal) (v : Json) (A : Finset Nat), sizeOf v ≤ n →
      agreeOn h h2 A → LayV h hv v A → LayV h2 hv v A) ∧
    (∀ (h h2 : Heap) (K : List String) (es : List (String × HVal))
      (bs : List (String × Json)) (A : Finset Nat), sizeOf bs ≤ n →
      agreeOn h h2 A → LayEsK h K es bs A → LayEsK h2 K es bs A) := by
  induction n using Nat.strong_induction_on with
  | _ n ih =>
    constructor
    · intro h h2 hv v A hn hag hL
      cases v with
      | num m => simpa [LayV] using hL
      | str t => simpa [LayV] using hL
      | boolean c => simpa [LayV] using hL
      | arr xs => simp [LayV] at hL
      | obj fields =>
        simp only [LayV] at hL ⊢
        obtain ⟨a, es, A2, rfl, hlook, hE, hnotin, rfl⟩ := hL
        have hflds : sizeOf fields < sizeOf (Json.obj fields) := by
          simp only [Json.obj.sizeOf_spec]; omega
        refine ⟨a, es, A2, rfl, ?_, ?_, hnotin, rfl⟩
        · rw [hag a (Finset.mem_insert_self a A2)]; exact hlook
        · exact (ih (sizeOf fields) (lt_of_lt_of_le hflds hn)).2 h h2 [] es fields A2
            le_rfl (agreeOn_mono (Finset.subset_insert a A2) hag) hE
    · intro h h2 K es bs A hn hag hL
      cases es with
      | nil =>
        cases bs with
        | nil => simpa [LayEsK] using hL
        | cons hd tl => simp [LayEsK] at hL
      | cons hd tl =>
        obtain ⟨k, hv⟩ := hd
        cases bs with
        | nil => simp [LayEsK] at hL
        | cons hd2 tl2 =>
          obtain ⟨k2, v⟩ := hd2
          simp only [LayEsK] at hL ⊢
          obtain ⟨heq, hnd, hrest⟩ := hL
          subst heq
          refine ⟨rfl, hnd, ?_⟩
          have htl : sizeOf tl2 < sizeOf ((k2, v) :: tl2) := by
            simp only [List.cons.sizeOf_spec]; omega
          have hval : sizeOf v < sizeOf ((k2, v) :: tl2) := by
            simp only [List.cons.sizeOf_spec, Prod.mk.sizeOf_spec]; omega
          by_cases hk : k2 ∈ K
          · rw [if_pos hk] at hrest ⊢
            exact (ih (sizeOf tl2) (lt_of_lt_of_le htl hn)).2 h h2 K tl tl2 A
              le_rfl hag hrest
          · rw [if_neg hk] at hrest ⊢
            obtain ⟨A1, A2, hV, hE, hdisj, rfl⟩ := hrest
            exact ⟨A1, A2,
              (ih (sizeOf v) (lt_of_lt_of_le hval hn)).1 h h2 hv v A1 le_rfl
                (agreeOn_mono Finset.subset_union_left hag) hV,
              (ih (sizeOf tl2) (lt_of_lt_of_le htl hn)).2 h h2 K tl tl2 A2 le_rfl
                (agreeOn_mono Finset.subset_union_right hag) hE,
              hdisj, rfl⟩

theorem LayV_frame {h h2 : Heap} {hv : HVal} {v : Json} {A : Finset Nat}
    (hag : agreeOn h h2 A) (hL : LayV h hv v A) : LayV h2 hv v A :=
  (Lay_frame (sizeOf v)).1 h h2 hv v A le_rfl hag hL

theorem LayEsK_frame {h h2 : Heap} {K : List String} {es : List (String × HVal)}
    {bs : List (String × Json)} {A : Finset Nat}
    (hag : agreeOn h h2 A) (hL : LayEsK h K es bs A) : LayEsK h2 K es bs A :=
  (Lay_frame (sizeOf bs)).2 h h2 K es bs A le_rfl hag hL

theorem LayD_frame {h h2 : Heap} {K : List String} {a : Nat}
    {bs : List (String × Json)} {A : Finset Nat}
    (hag : agreeOn h h2 A) (hL : LayD h K a bs A) : LayD h2 K a bs A := by
  obtain ⟨es, A2, hlook, hE, hn, rfl⟩ := hL
  exact ⟨es, A2, by rw [hag a (Finset.mem_insert_self a A2)]; exact hlook,
    LayEsK_frame (agreeOn_mono (Finset.subset_insert a A2) hag) hE, hn, rfl⟩

/-! Heap update lemmas. -/

theorem heapSetKey_next (h : Heap) (a : Nat) (k : String) (v : HVal) :
    (heapSetKey h a k v).next = h.next := by
  unfold heapSetKey
  cases alookup a h.store <;> rfl

theorem alookup_heapSetKey_ne (h : Heap) {a c : Nat} (hne : c ≠ a) (k : String) (v : HVal) :
    alookup c (heapSetKey h a k v).store = alookup c h.store := by
  unfold heapSetKey
  cases alookup a h.store with
  | none => rfl
  | some d => exact alookup_aset_ne (fun he => hne he.symm) _ _

theorem alookup_heapSetKey_self {h : Heap} {a : Nat} {d : List (String × HVal)}
    (hd : alookup a h.store = some d) (k : String) (v : HVal) :
    alookup a (heapSetKey h a k v).store = some (aset k v d) := by
  unfold heapSetKey
  rw [hd]
  exact alookup_aset_self a _ _

theorem heapGetD_eq {h : Heap} {a : Nat} {d : List (String × HVal)}
    (hd : alookup a h.store = some d) : heapGetD h a = d := by
  unfold heapGetD
  rw [hd]

theorem mem_aset_keys {α β : Type} [DecidableEq α] (k k1 : α) (v : β) (l : List (α × β)) :
    k1 ∈ (aset k v l).map Prod.fst ↔ k1 = k ∨ k1 ∈ l.map Prod.fst := by
  induction l with
  | nil => simp [aset]
  | cons hd tl ih =>
    obtain ⟨k2, v2⟩ := hd
    by_cases h : k2 = k
    · subst h
      have ha : aset k2 v ((k2, v2) :: tl) = (k2, v) :: tl := by simp [aset]
      rw [ha]
      simp only [List.map_cons, List.mem_cons]
      tauto
    · have ha : aset k v ((k2, v2) :: tl) = (k2, v2) :: aset k v tl := by simp [aset, h]
      rw [ha]
      simp only [List.map_cons, List.mem_cons, ih]
      tauto

theorem alookup_none_iff {α β : Type} [DecidableEq α] (k : α) (l : List (α × β)) :
    alookup k l = none ↔ k ∉ l.map Prod.fst := by
  induction l with
  | nil => simp [alookup]
  | cons hd tl ih =>
    obtain ⟨k2, v2⟩ := hd
    simp only [alookup, List.map_cons, List.mem_cons]
    by_cases h : k2 = k
    · rw [if_pos h]
      simp [h]
    · rw [if_neg h, ih]
      constructor
      · intro hnot hor
        rcases hor with hor | hor
        · exact h hor.symm
        · exact hnot hor
      · intro hnot hmem
        exact hnot (Or.inr hmem)

/-- A key that occurs in no entry can be added to or removed from the
exempt set freely. -/
theorem LayEsK_key_irrel (h : Heap) (K : List String) (k : String) :
    ∀ (es : List (String × HVal)) (bs : List (String × Json)) (A : Finset Nat),
    k ∉ es.map Prod.fst →
    (LayEsK h (k :: K) es bs A ↔ LayEsK h K es bs A) := by
  intro es
  induction es with
  | nil =>
    intro bs A _
    cases bs with
    | nil => simp [LayEsK]
    | cons hd tl => simp [LayEsK]
  | cons hd tl ih =>
    obtain ⟨k1, hv1⟩ := hd
    intro bs A hk
    simp only [List.map_cons, List.mem_cons] at hk
    push_neg at hk
    cases bs with
    | nil => simp [LayEsK]
    | cons hd2 tl2 =>
      obtain ⟨k2, v2⟩ := hd2
      simp only [LayEsK]
      have hmem : (k1 ∈ k :: K) ↔ (k1 ∈ K) := by
        simp [List.mem_cons, Ne.symm hk.1]
      constructor
      · rintro ⟨heq, hnd, hrest⟩
        refine ⟨heq, hnd, ?_⟩
        by_cases hk1 : k1 ∈ K
        · rw [if_pos (hmem.mpr hk1)] at hrest
          rw [if_pos hk1]
          exact (ih tl2 A hk.2).mp hrest
        · rw [if_neg (fun hx => hk1 (hmem.mp hx))] at hrest
          rw [if_neg hk1]
          obtain ⟨A1, A2, hV, hE, hdisj, rfl⟩ := hrest
          exact ⟨A1, A2, hV, (ih tl2 A2 hk.2).mp hE, hdisj, rfl⟩
      · rintro ⟨heq, hnd, hrest⟩
        refine ⟨heq, hnd, ?_⟩
        by_cases hk1 : k1 ∈ K
        · rw [if_pos hk1] at hrest
          rw [if_pos (hmem.mpr hk1)]
          exact (ih tl2 A hk.2).mpr hrest
        · rw [if_neg hk1] at hrest
          rw [if_neg (fun hx => hk1 (hmem.mp hx))]
          obtain ⟨A1, A2, hV, hE, hdisj, rfl⟩ := hrest
          exact ⟨A1, A2, hV, (ih tl2 A2 hk.2).mpr hE, hdisj, rfl⟩

/-- Splitting off one key: a full correspondence either has no entry at `k`
(and tolerates `k` becoming exempt), or decomposes into the layout of the
entry at `k` and the correspondence of everything else with `k` exempt. -/
theorem LayEsK_skip_split (h : Heap) (K : List String) (k : String) (hk : k ∉ K) :
    ∀ (es : List (String × HVal)) (bs : List (String × Json)) (A : Finset Nat),
    LayEsK h K es bs A →
    (alookup k es = none ∧ alookup k bs = none ∧ LayEsK h (k :: K) es bs A) ∨
    (∃ hv v Ak Arest, alookup k es = some hv ∧ alookup k bs = some v ∧
      LayV h hv v Ak ∧ Disjoint Ak Arest ∧ A = Ak ∪ Arest ∧
      LayEsK h (k :: K) es bs Arest) := by
  intro es
  induction es with
  | nil =>
    intro bs A hL
    cases bs with
    | nil =>
      left
      simp only [LayEsK] at hL
      exact ⟨rfl, rfl, by simp [LayEsK, hL]⟩
    | cons hd tl => simp [LayEsK] at hL
  | cons hd tl ih =>
    obtain ⟨k1, hv1⟩ := hd
    intro bs A hL
    cases bs with
    | nil => simp [LayEsK] at hL
    | cons hd2 tl2 =>
      obtain ⟨k2, v2⟩ := hd2
      simp only [LayEsK] at hL
      obtain ⟨heq, hnd, hrest⟩ := hL
      subst heq
      by_cases hkk : k2 = k
      · have hkK2 : k2 ∉ K := by rw [hkk]; exact hk
        rw [if_neg hkK2] at hrest
        obtain ⟨A1, A2, hV, hE, hdisj, rfl⟩ := hrest
        right
        refine ⟨hv1, v2, A1, A2, ?_, ?_, hV, hdisj, rfl, ?_⟩
        · simp [alookup, hkk]
        · simp [alookup, hkk]
        · simp only [LayEsK]
          refine ⟨by trivial, hnd, ?_⟩
          rw [if_pos (by rw [hkk]; exact List.mem_cons_self k K)]
          rw [LayEsK_key_irrel h K k tl tl2 A2 (by rw [← hkk]; exact hnd)]
          exact hE
      · have hlk1 : alookup k ((k2, hv1) :: tl) = alookup k tl := by
          simp [alookup, hkk]
        have hlk2 : alookup k ((k2, v2) :: tl2) = alookup k tl2 := by
          simp [alookup, hkk]
        by_cases hk2K : k2 ∈ K
        · rw [if_pos hk2K] at hrest
          rcases ih tl2 A hrest with ⟨hn1, hn2, hE⟩ | ⟨hv, v, Ak, Arest, hl1, hl2, hV, hdisj, rfl, hE⟩
          · left
            refine ⟨by rw [hlk1]; exact hn1, by rw [hlk2]; exact hn2, ?_⟩
            simp only [LayEsK]
            exact ⟨by trivial, hnd, by rw [if_pos (List.mem_cons_of_mem k hk2K)]; exact hE⟩
          · right
            refine ⟨hv, v, Ak, Arest, by rw [hlk1]; exact hl1, by rw [hlk2]; exact hl2,
              hV, hdisj, rfl, ?_⟩
            simp only [LayEsK]
            exact ⟨by trivial, hnd, by rw [if_pos (List.mem_cons_of_mem k hk2K)]; exact hE⟩
        · rw [if_neg hk2K] at hrest
          obtain ⟨A1, A2, hV1, hE, hdisj, rfl⟩ := hrest
          have hk2kK : k2 ∉ k :: K := by
            simp [List.mem_cons, hkk, hk2K]
          rcases ih tl2 A2 hE with ⟨hn1, hn2, hE2⟩ | ⟨hv, v, Ak, Arest, hl1, hl2, hV, hdisj2, rfl, hE2⟩
          · left
            refine ⟨by rw [hlk1]; exact hn1, by rw [hlk2]; exact hn2, ?_⟩
            simp only [LayEsK]
            exact ⟨by trivial, hnd, by rw [if_neg hk2kK]; exact ⟨A1, A2, hV1, hE2, hdisj, rfl⟩⟩
          · right
            have hd1 : Disjoint A1 Ak := (Finset.disjoint_union_right.mp hdisj).1
            have hd2 : Disjoint A1 Arest := (Finset.disjoint_union_right.mp hdisj).2
            refine ⟨hv, v, Ak, A1 ∪ Arest, by rw [hlk1]; exact hl1, by rw [hlk2]; exact hl2,
              hV, ?_, ?_, ?_⟩
            · exact Finset.disjoint_union_right.mpr ⟨hd1.symm, hdisj2⟩
            · rw [Finset.union_left_comm]
            · simp only [LayEsK]
              exact ⟨by trivial, hnd, by rw [if_neg hk2kK]; exact ⟨A1, Arest, hV1, hE2, hd2, rfl⟩⟩

/-- Re-attaching a key: turning an exempt entry whose sides are known to
lay out against each other back into a counted entry. -/
theorem LayEsK_reattach (h : Heap) (K : List String) (k : String) (hk : k ∉ K) :
    ∀ (es : List (String × HVal)) (bs : List (String × Json)) (Arest Ak : Finset Nat)
      (hv : HVal) (v : Json),
    LayEsK h (k :: K) es bs Arest →
    alookup k es = some hv → alookup k bs = some v →
    LayV h hv v Ak → Disjoint Ak Arest →
    LayEsK h K es bs (Ak ∪ Arest) := by
  intro es
  induction es with
  | nil =>
    intro bs Arest Ak hv v _ hl1 _ _ _
    simp [alookup] at hl1
  | cons hd tl ih =>
    obtain ⟨k1, hv1⟩ := hd
    intro bs Arest Ak hv v hL hl1 hl2 hV hdisj
    cases bs with
    | nil => simp [LayEsK] at hL
    | cons hd2 tl2 =>
      obtain ⟨k2, v2⟩ := hd2
      simp only [LayEsK] at hL
      obtain ⟨heq, hnd, hrest⟩ := hL
      subst heq
      by_cases hkk : k2 = k
      · rw [if_pos (by rw [hkk]; exact List.mem_cons_self k K)] at hrest
        have hv1eq : hv1 = hv := by
          have : alookup k ((k2, hv1) :: tl) = some hv1 := by simp [alookup, hkk]
          rw [hl1] at this
          exact (Option.some_injective _ this).symm
        have hv2eq : v2 = v := by
          have : alookup k ((k2, v2) :: tl2) = some v2 := by simp [alookup, hkk]
          rw [hl2] at this
          exact (Option.some_injective _ this).symm
        subst hv1eq
        subst hv2eq
        simp only [LayEsK]
        refine ⟨by trivial, hnd, ?_⟩
        rw [if_neg (by rw [hkk]; exact hk)]
        refine ⟨Ak, Arest, hV, ?_, hdisj, rfl⟩
        rw [← LayEsK_key_irrel h K k tl tl2 Arest (by rw [← hkk]; exact hnd)]
        exact hrest
      · have hlk1 : alookup k tl = some hv := by
          rw [← hl1]; simp [alookup, hkk]
        have hlk2 : alookup k tl2 = some v := by
          rw [← hl2]; simp [alookup, hkk]
        by_cases hk2K : k2 ∈ K
        · rw [if_pos (List.mem_cons_of_mem k hk2K)] at hrest
          simp only [LayEsK]
          refine ⟨by trivial, hnd, ?_⟩
          rw [if_pos hk2K]
          exact ih tl2 Arest Ak hv v hrest hlk1 hlk2 hV hdisj
        · have hk2kK : k2 ∉ k :: K := by simp [List.mem_cons, hkk, hk2K]
          rw [if_neg hk2kK] at hrest
          obtain ⟨A1, A2, hV1, hE, hd12, rfl⟩ := hrest
          have hdAk1 : Disjoint Ak A1 := (Finset.disjoint_union_right.mp hdisj).1
          have hdAk2 : Disjoint Ak A2 := (Finset.disjoint_union_right.mp hdisj).2
          simp only [LayEsK]
          refine ⟨by trivial, hnd, ?_⟩
          rw [if_neg hk2K]
          refine ⟨A1, Ak ∪ A2, hV1, ih tl2 A2 Ak hv v hE hlk1 hlk2 hV hdAk2, ?_, ?_⟩
          · exact Finset.disjoint_union_right.mpr ⟨hdAk1.symm, hd12⟩
          · rw [Finset.union_left_comm]

/-- Assigning at an exempt key preserves the correspondence (both sides
updated, as Python does `dict1[key] = value`). -/
theorem LayEsK_aset_skip (h : Heap) (K : List String) (k : String) (hkK : k ∈ K) :
    ∀ (es : List (String × HVal)) (bs : List (String × Json)) (A : Finset Nat)
      (hv : HVal) (v : Json),
    LayEsK h K es bs A → LayEsK h K (aset k hv es) (aset k v bs) A := by
  intro es
  induction es with
  | nil =>
    intro bs A hv v hL
    cases bs with
    | nil =>
      simp only [LayEsK] at hL
      simp only [aset, LayEsK]
      exact ⟨by trivial, by simp, by rw [if_pos hkK]; simp [LayEsK, hL]⟩
    | cons hd tl => simp [LayEsK] at hL
  | cons hd tl ih =>
    obtain ⟨k1, hv1⟩ := hd
    intro bs A hv v hL
    cases bs with
    | nil => simp [LayEsK] at hL
    | cons hd2 tl2 =>
      obtain ⟨k2, v2⟩ := hd2
      simp only [LayEsK] at hL
      obtain ⟨heq, hnd, hrest⟩ := hL
      subst heq
      by_cases hkk : k2 = k
      · subst hkk
        have ha1 : aset k2 hv ((k2, hv1) :: tl) = (k2, hv) :: tl := by simp [aset]
        have ha2 : aset k2 v ((k2, v2) :: tl2) = (k2, v) :: tl2 := by simp [aset]
        rw [ha1, ha2]
        simp only [LayEsK]
        rw [if_pos hkK] at hrest ⊢
        exact ⟨by trivial, hnd, hrest⟩
      · have ha1 : aset k hv ((k2, hv1) :: tl) = (k2, hv1) :: aset k hv tl := by
          simp [aset, hkk]
        have ha2 : aset k v ((k2, v2) :: tl2) = (k2, v2) :: aset k v tl2 := by
          simp [aset, hkk]
        rw [ha1, ha2]
        simp only [LayEsK]
        have hnd2 : k2 ∉ (aset k hv tl).map Prod.fst := by
          rw [mem_aset_keys]
          push_neg
          exact ⟨hkk, hnd⟩
        refine ⟨by trivial, hnd2, ?_⟩
        by_cases hk2K : k2 ∈ K
        · rw [if_pos hk2K] at hrest ⊢
          exact ih tl2 A hv v hrest
        · rw [if_neg hk2K] at hrest ⊢
          obtain ⟨A1, A2, hV1, hE, hdisj, rfl⟩ := hrest
          exact ⟨A1, A2, hV1, ih tl2 A2 hv v hE, hdisj, rfl⟩

/-- Assigning only the pure side at an exempt key that is present on the
heap side (positions stay aligned because the key lists coincide). -/
theorem LayEsK_aset_pure_skip (h : Heap) (K : List String) (k : String) (hkK : k ∈ K) :
    ∀ (es : List (String × HVal)) (bs : List (String × Json)) (A : Finset Nat) (v : Json),
    LayEsK h K es bs A → k ∈ es.map Prod.fst →
    LayEsK h K es (aset k v bs) A := by
  intro es
  induction es with
  | nil =>
    intro bs A v _ hmem
    simp at hmem
  | cons hd tl ih =>
    obtain ⟨k1, hv1⟩ := hd
    intro bs A v hL hmem
    cases bs with
    | nil => simp [LayEsK] at hL
    | cons hd2 tl2 =>
      obtain ⟨k2, v2⟩ := hd2
      simp only [LayEsK] at hL
      obtain ⟨heq, hnd, hrest⟩ := hL
      subst heq
      by_cases hkk : k2 = k
      · subst hkk
        have ha2 : aset k2 v ((k2, v2) :: tl2) = (k2, v) :: tl2 := by simp [aset]
        rw [ha2]
        simp only [LayEsK]
        rw [if_pos hkK] at hrest ⊢
        exact ⟨by trivial, hnd, hrest⟩
      · have hmem2 : k ∈ tl.map Prod.fst := by
          simp only [List.map_cons, List.mem_cons] at hmem
          rcases hmem with hmem | hmem
          · exact absurd hmem.symm hkk
          · exact hmem
        have ha2 : aset k v ((k2, v2) :: tl2) = (k2, v2) :: aset k v tl2 := by
          simp [aset, hkk]
        rw [ha2]
        simp only [LayEsK]
        refine ⟨by trivial, hnd, ?_⟩
        by_cases hk2K : k2 ∈ K
        · rw [if_pos hk2K] at hrest ⊢
          exact ih tl2 A v hrest hmem2
        · rw [if_neg hk2K] at hrest ⊢
          obtain ⟨A1, A2, hV1, hE, hdisj, rfl⟩ := hrest
          exact ⟨A1, A2, hV1, ih tl2 A2 v hE hmem2, hdisj, rfl⟩

/-! Step characterisations of the `deep_merge` interpreter and loop body. -/

theorem dmGo_nil (fuel : Nat) (h : Heap) (a1 : Nat) :
    dmGo (fuel + 1) h a1 [] = some h := rfl

theorem dmGo_cons_ref {fuel : Nat} {h : Heap} {a1 : Nat} {k : String} {a2k a1k : Nat}
    {es2 : List (String × HVal)}
    (hl : alookup k (heapGetD h a1) = some (HVal.ref a1k)) :
    dmGo (fuel + 1) h a1 ((k, HVal.ref a2k) :: es2) =
      match dmGo fuel h a1k (heapGetD h a2k) with
      | none => none
      | some h2 => dmGo fuel h2 a1 es2 := by
  simp [dmGo, hl]

theorem dmGo_cons_assign {fuel : Nat} {h : Heap} {a1 : Nat} {k : String} {hv : HVal}
    {es2 : List (String × HVal)}
    (hside : (∀ a2k, hv ≠ HVal.ref a2k) ∨
      (∀ a1k, alookup k (heapGetD h a1) ≠ some (HVal.ref a1k))) :
    dmGo (fuel + 1) h a1 ((k, hv) :: es2) =
      dmGo fuel (heapSetKey h a1 k hv) a1 es2 := by
  cases hv with
  | ref a2k =>
    rcases hside with hs | hs
    · exact absurd rfl (hs a2k)
    · cases hl : alookup k (heapGetD h a1) with
      | none => simp [dmGo, hl]
      | some w =>
        cases w with
        | ref a1k => exact absurd hl (hs a1k)
        | int n => simp [dmGo, hl]
        | str t => simp [dmGo, hl]
        | boolean c => simp [dmGo, hl]
        | noneV => simp [dmGo, hl]
  | int n => simp [dmGo]
  | str t => simp [dmGo]
  | boolean c => simp [dmGo]
  | noneV => simp [dmGo]

theorem mergeStep_of_none {b : List (String × Json)} {k : String}
    (hn : alookup k b = none) (v : Json) : mergeStep b k v = aset k v b := by
  cases v <;> simp [mergeStep, asObj, hn]

theorem mergeStep_of_not_obj {b : List (String × Json)} {k : String} {v1 : Json}
    (hl : alookup k b = some v1) (hno : ∀ o1, v1 ≠ Json.obj o1) (v : Json) :
    mergeStep b k v = aset k v b := by
  cases v <;> simp [mergeStep]
  cases v1 with
  | obj o1 => exact absurd rfl (hno o1)
  | num m => simp [asObj, hl]
  | str t => simp [asObj, hl]
  | boolean c => simp [asObj, hl]
  | arr xs => simp [asObj, hl]

theorem mergeStep_obj_obj {b : List (String × Json)} {k : String}
    {o1 o2 : List (String × Json)} (hl : alookup k b = some (Json.obj o1)) :
    mergeStep b k (Json.obj o2) = aset k (Json.obj (deep_merge o1 o2)) b := by
  simp [mergeStep, hl, asObj]

theorem alookup_mem_keys {α β : Type} [DecidableEq α] {k : α} {l : List (α × β)} {x : β}
    (hl : alookup k l = some x) : k ∈ l.map Prod.fst := by
  by_contra hc
  rw [(alookup_none_iff k l).mpr hc] at hl
  cases hl

theorem LayD_reattach {h3 : Heap} {K : List String} {k : String} {a1 : Nat}
    {P : List (String × Json)} {A3 Ah : Finset Nat} {hv : HVal} {v : Json}
    (hk : k ∉ K) (hD : LayD h3 (k :: K) a1 P A3)
    (hlh : alookup k (heapGetD h3 a1) = some hv) (hlp : alookup k P = some v)
    (hV : LayV h3 hv v Ah) (hdisj : Disjoint Ah A3) (ha1 : a1 ∉ Ah) :
    ∃ A4, LayD h3 K a1 P A4 ∧ A4 ⊆ Ah ∪ A3 := by
  obtain ⟨esF, A3i, hlF, hEF, ha1i, rfl⟩ := hD
  rw [heapGetD_eq hlF] at hlh
  have hdisj2 : Disjoint Ah A3i :=
    hdisj.mono_right (Finset.subset_insert a1 A3i)
  refine ⟨insert a1 (Ah ∪ A3i),
    ⟨esF, Ah ∪ A3i, hlF,
      LayEsK_reattach h3 K k hk esF P A3i Ah hv v hEF hlh hlp hV hdisj2,
      by simp [ha1, ha1i], rfl⟩, ?_⟩
  intro c hc
  rcases Finset.mem_insert.mp hc with rfl | hc
  · exact Finset.mem_union_right _ (Finset.mem_insert_self c A3i)
  · rcases Finset.mem_union.mp hc with hc | hc
    · exact Finset.mem_union_left _ hc
    · exact Finset.mem_union_right _ (Finset.mem_insert_of_mem hc)

/-- Conclusions of one simulated `deep_merge` loop run: allocation-free,
writes confined to the dictionary-side footprint `A1`, the dictionary side
afterwards lays out the pure `deep_merge`, entries at keys outside the
overlay are untouched, and every key where both sides held mappings now
holds the recursively merged mapping in place (at the base's own nested
address). -/
def SimConcl (h h2 : Heap) (a1 : Nat) (K : List String)
    (b o : List (String × Json)) (A1 A2 : Finset Nat) : Prop :=
  h2.next = h.next ∧
  (∀ c, c ∉ A1 → alookup c h2.store = alookup c h.store) ∧
  (∃ A3, LayD h2 K a1 (deep_merge b o) A3 ∧ A3 ⊆ A1 ∪ A2) ∧
  (∀ k2, k2 ∉ o.map Prod.fst →
    alookup k2 (heapGetD h2 a1) = alookup k2 (heapGetD h a1)) ∧
  (∀ k2 a1k o1 o2p, alookup k2 b = some (Json.obj o1) →
    alookup k2 o = some (Json.obj o2p) →
    alookup k2 (heapGetD h a1) = some (HVal.ref a1k) →
    ∃ Ak, LayD h2 [] a1k (deep_merge o1 o2p) Ak ∧ Ak ⊆ A1 ∪ A2)

/-- Shared argument for the loop steps that assign `dict1[key] = value`
(key absent from `dict1`, or at least one side not a mapping). -/
theorem sim_assign (h : Heap) (a1 : Nat) (K : List String) (k : String) (hv : HVal)
    (v : Json) (es5 : List (String × HVal)) (o5 : List (String × Json))
    (b : List (String × Json)) (es1 : List (String × HVal))
    (A1s A1i Ah A2r : Finset Nat) (fuel : Nat)
    (hkK : k ∉ K)
    (hl1 : alookup a1 h.store = some es1)
    (ha1 : a1 ∉ A1i)
    (hE1k : LayEsK h (k :: K) es1 b A1s)
    (hsub1 : A1s ⊆ A1i)
    (hVh : LayV h hv v Ah)
    (hOr : LayEsK h [] es5 o5 A2r)
    (hdisj : Disjoint (insert a1 A1i) (Ah ∪ A2r))
    (hdh : Disjoint Ah A2r)
    (hknot5 : k ∉ es5.map Prod.fst)
    (hK5 : ∀ k2 ∈ o5.map Prod.fst, k2 ∉ K)
    (hms : mergeStep b k v = aset k v b)
    (hno4 : ∀ o1 o2p, alookup k b = some (Json.obj o1) → v = Json.obj o2p → False)
    (hfuel : sizeOf o5 + 1 ≤ fuel)
    (hIH : ∀ (hh : Heap) (bb : List (String × Json)) (AA1 : Finset Nat),
      LayD hh (k :: K) a1 bb AA1 → LayEsK hh [] es5 o5 A2r →
      (∀ k2 ∈ o5.map Prod.fst, k2 ∉ k :: K) → Disjoint AA1 A2r →
      sizeOf o5 + 1 ≤ fuel →
      ∃ h3, dmGo fuel hh a1 es5 = some h3 ∧ SimConcl hh h3 a1 (k :: K) bb o5 AA1 A2r) :
    ∃ h3, dmGo fuel (heapSetKey h a1 k hv) a1 es5 = some h3 ∧
      SimConcl h h3 a1 K b ((k, v) :: o5) (insert a1 A1i) (Ah ∪ A2r) := by
  have ha1Ah : a1 ∉ Ah := fun hc =>
    Finset.disjoint_left.mp hdisj (Finset.mem_insert_self a1 A1i) (Finset.mem_union_left _ hc)
  have ha1A2r : a1 ∉ A2r := fun hc =>
    Finset.disjoint_left.mp hdisj (Finset.mem_insert_self a1 A1i) (Finset.mem_union_right _ hc)
  have ha1s : a1 ∉ A1s := fun hc => ha1 (hsub1 hc)
  have hko5 : k ∉ o5.map Prod.fst := by
    rw [LayEsK_keys h [] es5 o5 A2r hOr]
    exact hknot5
  set h2 := heapSetKey h a1 k hv with hh2
  have hag2 : ∀ (X : Finset Nat), a1 ∉ X → agreeOn h h2 X := by
    intro X hX c hc
    exact alookup_heapSetKey_ne h (fun he => hX (by rw [← he]; exact hc)) k hv
  have hl2 : alookup a1 h2.store = some (aset k hv es1) :=
    alookup_heapSetKey_self hl1 k hv
  have hD2 : LayD h2 (k :: K) a1 (aset k v b) (insert a1 A1s) :=
    ⟨aset k hv es1, A1s, hl2,
      LayEsK_aset_skip h2 (k :: K) k (List.mem_cons_self k K) es1 b A1s hv v
        (LayEsK_frame (hag2 A1s ha1s) hE1k), ha1s, rfl⟩
  have hOr2 : LayEsK h2 [] es5 o5 A2r := LayEsK_frame (hag2 A2r ha1A2r) hOr
  have hVh2 : LayV h2 hv v Ah := LayV_frame (hag2 Ah ha1Ah) hVh
  have hK5k : ∀ k2 ∈ o5.map Prod.fst, k2 ∉ k :: K := by
    intro k2 hk2 hmem
    rcases List.mem_cons.mp hmem with rfl | hmem
    · exact hko5 hk2
    · exact hK5 k2 hk2 hmem
  have hdisj2 : Disjoint (insert a1 A1s) A2r := by
    refine Finset.disjoint_left.mpr (fun c hc hc2 => ?_)
    rcases Finset.mem_insert.mp hc with rfl | hc
    · exact ha1A2r hc2
    · exact Finset.disjoint_left.mp hdisj
        (Finset.mem_insert_of_mem (hsub1 hc)) (Finset.mem_union_right _ hc2)
  obtain ⟨h3, hrun3, hnext3, hframe3, ⟨A3, hD3, hsub3⟩, hpres3, hind3⟩ :=
    hIH h2 (aset k v b) (insert a1 A1s) hD2 hOr2 hK5k hdisj2 hfuel
  have hframe23 : ∀ c, c ∉ insert a1 A1i → alookup c h3.store = alookup c h.store := by
    intro c hc
    have hca1 : c ≠ a1 := fun he => hc (he ▸ Finset.mem_insert_self a1 A1i)
    have hcs : c ∉ insert a1 A1s := fun hm => hc (by
      rcases Finset.mem_insert.mp hm with rfl | hm
      · exact Finset.mem_insert_self c A1i
      · exact Finset.mem_insert_of_mem (hsub1 hm))
    rw [hframe3 c hcs]
    exact alookup_heapSetKey_ne h hca1 k hv
  have hget2 : heapGetD h2 a1 = aset k hv es1 := heapGetD_eq hl2
  have hmerge_eq : deep_merge b ((k, v) :: o5) = deep_merge (aset k v b) o5 := by
    rw [deep_merge_cons, hms]
  refine ⟨h3, hrun3, heapSetKey_next h a1 k hv ▸ hnext3, hframe23, ?_, ?_, ?_⟩
  · -- final layout with k re-attached
    rw [hmerge_eq]
    have hlh : alookup k (heapGetD h3 a1) = some hv := by
      rw [hpres3 k hko5, hget2]
      exact alookup_aset_self k hv es1
    have hlp : alookup k (deep_merge (aset k v b) o5) = some v := by
      rw [alookup_deep_merge_not_mem o5 hko5]
      exact alookup_aset_self k v b
    have hVh3 : LayV h3 hv v Ah := by
      refine LayV_frame (fun c hc => hframe3 c (fun hm => ?_)) hVh2
      rcases Finset.mem_insert.mp hm with rfl | hm
      · exact ha1Ah hc
      · exact Finset.disjoint_left.mp hdisj
          (Finset.mem_insert_of_mem (hsub1 hm)) (Finset.mem_union_left _ hc)
    have hdAh3 : Disjoint Ah A3 := by
      refine Finset.disjoint_left.mpr (fun c hc hc3 => ?_)
      rcases Finset.mem_union.mp (hsub3 hc3) with hm | hm
      · rcases Finset.mem_insert.mp hm with rfl | hm
        · exact ha1Ah hc
        · exact Finset.disjoint_left.mp hdisj
            (Finset.mem_insert_of_mem (hsub1 hm)) (Finset.mem_union_left _ hc)
      · exact Finset.disjoint_left.mp hdh hc hm
    obtain ⟨A4, hD4, hsub4⟩ := LayD_reattach hkK hD3 hlh hlp hVh3 hdAh3 ha1Ah
    refine ⟨A4, hD4, fun c hc => ?_⟩
    rcases Finset.mem_union.mp (hsub4 hc) with hm | hm
    · exact Finset.mem_union_right _ (Finset.mem_union_left _ hm)
    · rcases Finset.mem_union.mp (hsub3 hm) with hm | hm
      · rcases Finset.mem_insert.mp hm with rfl | hm
        · exact Finset.mem_union_left _ (Finset.mem_insert_self c A1i)
        · exact Finset.mem_union_left _ (Finset.mem_insert_of_mem (hsub1 hm))
      · exact Finset.mem_union_right _ (Finset.mem_union_right _ hm)
  · -- entries outside the overlay keys untouched
    intro k2 hk2
    simp only [List.map_cons, List.mem_cons] at hk2
    push_neg at hk2
    rw [hpres3 k2 hk2.2, hget2, alookup_aset_ne (fun he => hk2.1 he.symm) hv es1,
      heapGetD_eq hl1]
  · -- both-mapping keys merged in place
    intro k2 a1k o1 o2p hb ho hheap
    by_cases hk2k : k2 = k
    · subst hk2k
      have hv2 : alookup k2 ((k2, v) :: o5) = some v := by simp [alookup]
      rw [hv2] at ho
      exact (hno4 o1 o2p hb (Option.some_injective _ ho)).elim
    · have ho5 : alookup k2 o5 = some (Json.obj o2p) := by
        rw [← ho]; simp [alookup, Ne.symm hk2k]
      have hb2 : alookup k2 (aset k v b) = some (Json.obj o1) := by
        rw [alookup_aset_ne (Ne.symm hk2k) v b]; exact hb
      have hheap2 : alookup k2 (heapGetD h2 a1) = some (HVal.ref a1k) := by
        rw [heapGetD_eq hl1] at hheap
        rw [hget2, alookup_aset_ne (Ne.symm hk2k) hv es1]
        exact hheap
      obtain ⟨Ak, hDk, hsubk⟩ := hind3 k2 a1k o1 o2p hb2 ho5 hheap2
      refine ⟨Ak, hDk, fun c hc => ?_⟩
      rcases Finset.mem_union.mp (hsubk hc) with hm | hm
      · rcases Finset.mem_insert.mp hm with rfl | hm
        · exact Finset.mem_union_left _ (Finset.mem_insert_self c A1i)
        · exact Finset.mem_union_left _ (Finset.mem_insert_of_mem (hsub1 hm))
      · exact Finset.mem_union_right _ (Finset.mem_union_right _ hm)

/-- Main simulation: running the interpreter loop of `deep_merge` over laid
out, non-aliased dictionaries succeeds, writes only within the
dictionary-side footprint, and leaves the dictionary side laying out the
pure `deep_merge` of the two values. -/
theorem dmGo_simK (n : Nat) :
    ∀ (o : List (String × Json)), sizeOf o ≤ n →
    ∀ (es2 : List (String × HVal)) (A2 : Finset Nat) (h : Heap) (a1 : Nat)
      (K : List String) (b : List (String × Json)) (A1 : Finset Nat) (fuel : Nat),
    LayD h K a1 b A1 →
    LayEsK h [] es2 o A2 →
    (∀ k2 ∈ o.map Prod.fst, k2 ∉ K) →
    Disjoint A1 A2 →
    sizeOf o + 1 ≤ fuel →
    ∃ h2, dmGo fuel h a1 es2 = some h2 ∧ SimConcl h h2 a1 K b o A1 A2 := by
  induction n using Nat.strong_induction_on with
  | _ n ih =>
  intro o hsz es2 A2 h a1 K b A1 fuel hD hO hKs hdisjA hfuel
  obtain ⟨fuel, rfl⟩ : ∃ f, fuel = f + 1 := ⟨fuel - 1, by omega⟩
  obtain ⟨es1, A1i, hl1, hE1, ha1, rfl⟩ := hD
  cases es2 with
  | nil =>
    cases o with
    | cons hd tl => simp [LayEsK] at hO
    | nil =>
      refine ⟨h, rfl, rfl, fun c _ => rfl,
        ⟨insert a1 A1i, ?_, Finset.subset_union_left⟩, fun k2 _ => rfl, ?_⟩
      · have hnil : deep_merge b [] = b := by simp [deep_merge]
        rw [hnil]
        exact ⟨es1, A1i, hl1, hE1, ha1, rfl⟩
      · intro k2 a1k o1 o2p _ ho _
        simp [alookup] at ho
  | cons hd es5 =>
    obtain ⟨k, hv⟩ := hd
    cases o with
    | nil => simp [LayEsK] at hO
    | cons hd2 o5 =>
      obtain ⟨kv, v⟩ := hd2
      simp only [LayEsK] at hO
      obtain ⟨heq, hknot5, hOrest⟩ := hO
      subst heq
      rw [if_neg (List.not_mem_nil kv)] at hOrest
      obtain ⟨Ah, A2r, hVh, hOr, hdh, rfl⟩ := hOrest
      have hkK : kv ∉ K := hKs kv (by simp)
      have hsz5 : sizeOf o5 < sizeOf ((kv, v) :: o5) := by
        simp only [List.cons.sizeOf_spec]; omega
      have hfuel5 : sizeOf o5 + 1 ≤ fuel := by
        simp only [List.cons.sizeOf_spec] at hfuel; omega
      have hK5 : ∀ k2 ∈ o5.map Prod.fst, k2 ∉ K :=
        fun k2 hk2 => hKs k2 (by simp [hk2])
      have hko5 : kv ∉ o5.map Prod.fst := by
        rw [LayEsK_keys h [] es5 o5 A2r hOr]
        exact hknot5
      have IHrest : ∀ (hh : Heap) (bb : List (String × Json)) (AA1 : Finset Nat),
          LayD hh (kv :: K) a1 bb AA1 → LayEsK hh [] es5 o5 A2r →
          (∀ k2 ∈ o5.map Prod.fst, k2 ∉ kv :: K) → Disjoint AA1 A2r →
          sizeOf o5 + 1 ≤ fuel →
          ∃ h3, dmGo fuel hh a1 es5 = some h3 ∧ SimConcl hh h3 a1 (kv :: K) bb o5 AA1 A2r :=
        fun hh bb AA1 h1 h2 h3 h4 h5 =>
          ih (sizeOf o5) (lt_of_lt_of_le hsz5 hsz) o5 le_rfl es5 A2r hh a1 (kv :: K)
            bb AA1 fuel h1 h2 h3 h4 h5
      rcases LayEsK_skip_split h K kv hkK es1 b A1i hE1 with
        ⟨hn1, hn2, hE1k⟩ | ⟨hv1, v1, Avk, Arest1, hlv1, hlv1p, hV1, hdj1, hA1idec, hE1k⟩
      · -- key absent from dict1: plain assignment
        have hstep : dmGo (fuel + 1) h a1 ((kv, hv) :: es5) =
            dmGo fuel (heapSetKey h a1 kv hv) a1 es5 := by
          apply dmGo_cons_assign
          right
          intro a1k hc
          rw [heapGetD_eq hl1, hn1] at hc
          cases hc
        rw [hstep]
        exact sim_assign h a1 K kv hv v es5 o5 b es1 A1i A1i Ah A2r fuel hkK hl1 ha1
          hE1k (fun c hc => hc) hVh hOr hdisjA hdh hknot5 hK5
          (mergeStep_of_none hn2 v)
          (fun o1 o2p hb _ => by rw [hn2] at hb; cases hb)
          hfuel5 IHrest
      · -- key present in dict1
        have hlheap : alookup kv (heapGetD h a1) = some hv1 := by
          rw [heapGetD_eq hl1]; exact hlv1
        have hsubA : Arest1 ⊆ A1i := by
          rw [hA1idec]; exact Finset.subset_union_right
        have hAvkA : Avk ⊆ A1i := by
          rw [hA1idec]; exact Finset.subset_union_left
        cases v with
        | arr xs => exact absurd hVh (by simp [LayV])
        | num m =>
          obtain ⟨rfl, rfl⟩ : hv = HVal.int m ∧ Ah = ∅ := by simpa [LayV] using hVh
          have hstep : dmGo (fuel + 1) h a1 ((kv, HVal.int m) :: es5) =
              dmGo fuel (heapSetKey h a1 kv (HVal.int m)) a1 es5 :=
            dmGo_cons_assign (Or.inl (fun a2k hc => HVal.noConfusion hc))
          rw [hstep]
          exact sim_assign h a1 K kv (HVal.int m) (Json.num m) es5 o5 b es1 Arest1 A1i
            ∅ A2r fuel hkK hl1 ha1 hE1k hsubA (by simp [LayV]) hOr hdisjA hdh
            hknot5 hK5 rfl
            (fun o1 o2p hb hveq => Json.noConfusion hveq)
            hfuel5 IHrest
        | str t =>
          obtain ⟨rfl, rfl⟩ : hv = HVal.str t ∧ Ah = ∅ := by simpa [LayV] using hVh
          have hstep : dmGo (fuel + 1) h a1 ((kv, HVal.str t) :: es5) =
              dmGo fuel (heapSetKey h a1 kv (HVal.str t)) a1 es5 :=
            dmGo_cons_assign (Or.inl (fun a2k hc => HVal.noConfusion hc))
          rw [hstep]
          exact sim_assign h a1 K kv (HVal.str t) (Json.str t) es5 o5 b es1 Arest1 A1i
            ∅ A2r fuel hkK hl1 ha1 hE1k hsubA (by simp [LayV]) hOr hdisjA hdh
            hknot5 hK5 rfl
            (fun o1 o2p hb hveq => Json.noConfusion hveq)
            hfuel5 IHrest
        | boolean c0 =>
          obtain ⟨rfl, rfl⟩ : hv = HVal.boolean c0 ∧ Ah = ∅ := by simpa [LayV] using hVh
          have hstep : dmGo (fuel + 1) h a1 ((kv, HVal.boolean c0) :: es5) =
              dmGo fuel (heapSetKey h a1 kv (HVal.boolean c0)) a1 es5 :=
            dmGo_cons_assign (Or.inl (fun a2k hc => HVal.noConfusion hc))
          rw [hstep]
          exact sim_assign h a1 K kv (HVal.boolean c0) (Json.boolean c0) es5 o5 b es1
            Arest1 A1i ∅ A2r fuel hkK hl1 ha1 hE1k hsubA (by simp [LayV]) hOr hdisjA
            hdh hknot5 hK5 rfl
            (fun o1 o2p hb hveq => Json.noConfusion hveq)
            hfuel5 IHrest
        | obj o2p =>
          cases v1 with
          | arr xs => exact absurd hV1 (by simp [LayV])
          | num m =>
            obtain ⟨rfl, rfl⟩ : hv1 = HVal.int m ∧ Avk = ∅ := by simpa [LayV] using hV1
            have hstep : dmGo (fuel + 1) h a1 ((kv, hv) :: es5) =
                dmGo fuel (heapSetKey h a1 kv hv) a1 es5 := by
              apply dmGo_cons_assign
              right
              intro a1k hc
              rw [hlheap] at hc
              exact HVal.noConfusion (Option.some_injective _ hc)
            rw [hstep]
            exact sim_assign h a1 K kv hv (Json.obj o2p) es5 o5 b es1 Arest1 A1i
              Ah A2r fuel hkK hl1 ha1 hE1k hsubA hVh hOr hdisjA hdh hknot5 hK5
              (mergeStep_of_not_obj hlv1p (fun o1 hc => Json.noConfusion hc) _)
              (fun o1 o2p2 hb _ => by
                rw [hlv1p] at hb
                exact Json.noConfusion (Option.some_injective _ hb))
              hfuel5 IHrest
          | str t =>
            obtain ⟨rfl, rfl⟩ : hv1 = HVal.str t ∧ Avk = ∅ := by simpa [LayV] using hV1
            have hstep : dmGo (fuel + 1) h a1 ((kv, hv) :: es5) =
                dmGo fuel (heapSetKey h a1 kv hv) a1 es5 := by
              apply dmGo_cons_assign
              right
              intro a1k hc
              rw [hlheap] at hc
              exact HVal.noConfusion (Option.some_injective _ hc)
            rw [hstep]
            exact sim_assign h a1 K kv hv (Json.obj o2p) es5 o5 b es1 Arest1 A1i
              Ah A2r fuel hkK hl1 ha1 hE1k hsubA hVh hOr hdisjA hdh hknot5 hK5
              (mergeStep_of_not_obj hlv1p (fun o1 hc => Json.noConfusion hc) _)
              (fun o1 o2p2 hb _ => by
                rw [hlv1p] at hb
                exact Json.noConfusion (Option.some_injective _ hb))
              hfuel5 IHrest
          | boolean c0 =>
            obtain ⟨rfl, rfl⟩ : hv1 = HVal.boolean c0 ∧ Avk = ∅ := by simpa [LayV] using hV1
            have hstep : dmGo (fuel + 1) h a1 ((kv, hv) :: es5) =
                dmGo fuel (heapSetKey h a1 kv hv) a1 es5 := by
              apply dmGo_cons_assign
              right
              intro a1k hc
              rw [hlheap] at hc
              exact HVal.noConfusion (Option.some_injective _ hc)
            rw [hstep]
            exact sim_assign h a1 K kv hv (Json.obj o2p) es5 o5 b es1 Arest1 A1i
              Ah A2r fuel hkK hl1 ha1 hE1k hsubA hVh hOr hdisjA hdh hknot5 hK5
              (mergeStep_of_not_obj hlv1p (fun o1 hc => Json.noConfusion hc) _)
              (fun o1 o2p2 hb _ => by
                rw [hlv1p] at hb
                exact Json.noConfusion (Option.some_injective _ hb))
              hfuel5 IHrest
          | obj o1 =>
            -- both sides mappings: recursive in-place merge of the nested object
            rw [LayV_obj] at hVh hV1
            obtain ⟨a2k, rfl, hD2⟩ := hVh
            obtain ⟨a1k, rfl, hDk⟩ := hV1
            obtain ⟨esC, Ahi, hlC, hEC, ha2ki, rfl⟩ := hD2
            rw [dmGo_cons_ref (by rw [heapGetD_eq hl1]; exact hlv1), heapGetD_eq hlC]
            have hszC : sizeOf o2p < sizeOf ((kv, Json.obj o2p) :: o5) := by
              simp only [List.cons.sizeOf_spec, Prod.mk.sizeOf_spec, Json.obj.sizeOf_spec]
              omega
            have hfuelC : sizeOf o2p + 1 ≤ fuel := by
              simp only [List.cons.sizeOf_spec, Prod.mk.sizeOf_spec,
                Json.obj.sizeOf_spec] at hfuel
              omega
            have hAhiSub : Ahi ⊆ insert a2k Ahi := Finset.subset_insert a2k Ahi
            have hdisjC : Disjoint Avk Ahi :=
              hdisjA.mono ((hAvkA.trans (Finset.subset_insert a1 A1i)))
                (hAhiSub.trans ((Finset.subset_union_left).trans le_rfl))
            obtain ⟨hm, hrunC, hnextC, hframeC, ⟨AkF, hDkF, hsubC⟩, _, _⟩ :=
              ih (sizeOf o2p) (lt_of_lt_of_le hszC hsz) o2p le_rfl esC Ahi h a1k []
                o1 Avk fuel hDk hEC (fun k2 _ => List.not_mem_nil k2) hdisjC hfuelC
            rw [hrunC]
            show ∃ h2, dmGo fuel hm a1 es5 = some h2 ∧ _
            have ha1Avk : a1 ∉ Avk := fun hc => ha1 (hAvkA hc)
            have hagm : ∀ (X : Finset Nat), Disjoint Avk X → agreeOn h hm X :=
              fun X hdx c hc => hframeC c (Finset.disjoint_right.mp hdx hc)
            have hl1m : alookup a1 hm.store = some es1 := by
              rw [hframeC a1 ha1Avk]; exact hl1
            have hms : mergeStep b kv (Json.obj o2p) =
                aset kv (Json.obj (deep_merge o1 o2p)) b := mergeStep_obj_obj hlv1p
            have hE1m : LayEsK hm (kv :: K) es1 b Arest1 :=
              LayEsK_frame (hagm Arest1 hdj1) hE1k
            have hE1m2 : LayEsK hm (kv :: K) es1
                (aset kv (Json.obj (deep_merge o1 o2p)) b) Arest1 :=
              LayEsK_aset_pure_skip hm (kv :: K) kv (List.mem_cons_self kv K) es1 b
                Arest1 (Json.obj (deep_merge o1 o2p)) hE1m (alookup_mem_keys hlv1)
            have ha1r : a1 ∉ Arest1 := fun hc => ha1 (hsubA hc)
            have hD2m : LayD hm (kv :: K) a1
                (aset kv (Json.obj (deep_merge o1 o2p)) b) (insert a1 Arest1) :=
              ⟨es1, Arest1, hl1m, hE1m2, ha1r, rfl⟩
            have hdAvkA2r : Disjoint Avk A2r :=
              hdisjA.mono (hAvkA.trans (Finset.subset_insert a1 A1i))
                Finset.subset_union_right
            have hOr2 : LayEsK hm [] es5 o5 A2r := LayEsK_frame (hagm A2r hdAvkA2r) hOr
            have hK5k : ∀ k2 ∈ o5.map Prod.fst, k2 ∉ kv :: K := by
              intro k2 hk2 hmem
              rcases List.mem_cons.mp hmem with rfl | hmem
              · exact hko5 hk2
              · exact hK5 k2 hk2 hmem
            have hdisj2 : Disjoint (insert a1 Arest1) A2r := by
              refine Finset.disjoint_left.mpr (fun c hc hc2 => ?_)
              rcases Finset.mem_insert.mp hc with rfl | hc
              · exact Finset.disjoint_left.mp hdisjA (Finset.mem_insert_self c A1i)
                  (Finset.mem_union_right _ hc2)
              · exact Finset.disjoint_left.mp hdisjA
                  (Finset.mem_insert_of_mem (hsubA hc)) (Finset.mem_union_right _ hc2)
            obtain ⟨h3, hrun3, hnext3, hframe3, ⟨A3, hD3, hsub3⟩, hpres3, hind3⟩ :=
              IHrest hm (aset kv (Json.obj (deep_merge o1 o2p)) b) (insert a1 Arest1)
                hD2m hOr2 hK5k hdisj2 hfuel5
            -- frame facts for the merged child footprint
            have hsubAkF : ∀ c ∈ AkF, c ∈ Avk ∨ c ∈ Ahi := by
              intro c hc
              rcases Finset.mem_union.mp (hsubC hc) with hc | hc
              · exact Or.inl hc
              · exact Or.inr hc
            have hAkFrest : Disjoint AkF (insert a1 Arest1) := by
              refine Finset.disjoint_left.mpr (fun c hc hc2 => ?_)
              rcases Finset.mem_insert.mp hc2 with rfl | hc2
              · rcases hsubAkF c hc with hc | hc
                · exact ha1Avk hc
                · exact Finset.disjoint_left.mp hdisjA (Finset.mem_insert_self c A1i)
                    (Finset.mem_union_left _ (Finset.mem_insert_of_mem hc))
              · rcases hsubAkF c hc with hc | hc
                · exact Finset.disjoint_left.mp hdj1 hc hc2
                · exact Finset.disjoint_left.mp hdisjA
                    (Finset.mem_insert_of_mem (hsubA hc2))
                    (Finset.mem_union_left _ (Finset.mem_insert_of_mem hc))
            have hDkF3 : LayD h3 [] a1k (deep_merge o1 o2p) AkF := by
              refine LayD_frame (fun c hc => hframe3 c ?_) hDkF
              exact fun hm2 => Finset.disjoint_left.mp hAkFrest hc hm2
            refine ⟨h3, hrun3, hnext3.trans hnextC, ?_, ?_, ?_, ?_⟩
            · -- writes confined to the original dictionary footprint
              intro c hc
              have hcr : c ∉ insert a1 Arest1 := fun hc2 => hc (by
                rcases Finset.mem_insert.mp hc2 with rfl | hc2
                · exact Finset.mem_insert_self c A1i
                · exact Finset.mem_insert_of_mem (hsubA hc2))
              have hcv : c ∉ Avk := fun hc2 =>
                hc (Finset.mem_insert_of_mem (hAvkA hc2))
              rw [hframe3 c hcr, hframeC c hcv]
            · -- final layout with kv re-attached
              rw [deep_merge_cons, hms]
              have hlh : alookup kv (heapGetD h3 a1) = some (HVal.ref a1k) := by
                rw [hpres3 kv hko5, heapGetD_eq hl1m]
                exact hlv1
              have hlp : alookup kv
                  (deep_merge (aset kv (Json.obj (deep_merge o1 o2p)) b) o5) =
                  some (Json.obj (deep_merge o1 o2p)) := by
                rw [alookup_deep_merge_not_mem o5 hko5]
                exact alookup_aset_self kv _ b
              have hVfin : LayV h3 (HVal.ref a1k) (Json.obj (deep_merge o1 o2p)) AkF :=
                (LayV_obj h3 (HVal.ref a1k) (deep_merge o1 o2p) AkF).mpr ⟨a1k, rfl, hDkF3⟩
              have hdAkF3 : Disjoint AkF A3 := by
                refine Finset.disjoint_left.mpr (fun c hc hc3 => ?_)
                rcases Finset.mem_union.mp (hsub3 hc3) with hm3 | hm3
                · exact Finset.disjoint_left.mp hAkFrest hc hm3
                · rcases hsubAkF c hc with hc | hc
                  · exact Finset.disjoint_left.mp hdAvkA2r hc hm3
                  · exact Finset.disjoint_left.mp hdh
                      (Finset.mem_insert_of_mem hc) hm3
              have ha1AkF : a1 ∉ AkF := fun hc =>
                Finset.disjoint_left.mp hAkFrest hc (Finset.mem_insert_self a1 Arest1)
              obtain ⟨A4, hD4, hsub4⟩ := LayD_reattach hkK hD3 hlh hlp hVfin hdAkF3 ha1AkF
              refine ⟨A4, hD4, fun c hc => ?_⟩
              rcases Finset.mem_union.mp (hsub4 hc) with hm4 | hm4
              · rcases hsubAkF c hm4 with hc2 | hc2
                · exact Finset.mem_union_left _ (Finset.mem_insert_of_mem (hAvkA hc2))
                · exact Finset.mem_union_right _
                    (Finset.mem_union_left _ (Finset.mem_insert_of_mem hc2))
              · rcases Finset.mem_union.mp (hsub3 hm4) with hm3 | hm3
                · rcases Finset.mem_insert.mp hm3 with rfl | hm3
                  · exact Finset.mem_union_left _ (Finset.mem_insert_self c A1i)
                  · exact Finset.mem_union_left _ (Finset.mem_insert_of_mem (hsubA hm3))
                · exact Finset.mem_union_right _ (Finset.mem_union_right _ hm3)
            · -- entries at keys outside the overlay untouched
              intro k2 hk2
              simp only [List.map_cons, List.mem_cons] at hk2
              push_neg at hk2
              rw [hpres3 k2 hk2.2, heapGetD_eq hl1m, heapGetD_eq hl1]
            · -- both-mapping keys merged in place
              intro k2 a1k2 o1b o2pb hb ho hheap
              by_cases hk2k : k2 = kv
              · subst hk2k
                have hvo : alookup k2 ((k2, Json.obj o2p) :: o5) = some (Json.obj o2p) := by
                  simp [alookup]
                rw [hvo] at ho
                have ho2 : o2pb = o2p := by
                  have := Option.some_injective _ ho
                  exact (Json.obj.injEq _ _).mp this.symm
                have hb2 : o1b = o1 := by
                  rw [hlv1p] at hb
                  have := Option.some_injective _ hb
                  exact (Json.obj.injEq _ _).mp this.symm
                have ha1k2 : a1k2 = a1k := by
                  rw [heapGetD_eq hl1, hlv1] at hheap
                  have := Option.some_injective _ hheap
                  exact (HVal.ref.injEq _ _).mp this.symm
                subst ho2; subst hb2; subst ha1k2
                refine ⟨AkF, hDkF3, fun c hc => ?_⟩
                rcases hsubAkF c hc with hc2 | hc2
                · exact Finset.mem_union_left _ (Finset.mem_insert_of_mem (hAvkA hc2))
                · exact Finset.mem_union_right _
                    (Finset.mem_union_left _ (Finset.mem_insert_of_mem hc2))
              · have ho5 : alookup k2 o5 = some (Json.obj o2pb) := by
                  rw [← ho]; simp [alookup, Ne.symm hk2k]
                have hb2 : alookup k2 (aset kv (Json.obj (deep_merge o1 o2p)) b) =
                    some (Json.obj o1b) := by
                  rw [alookup_aset_ne (Ne.symm hk2k) _ b]; exact hb
                have hheap2 : alookup k2 (heapGetD hm a1) = some (HVal.ref a1k2) := by
                  rw [heapGetD_eq hl1m]
                  rw [heapGetD_eq hl1] at hheap
                  exact hheap
                obtain ⟨Ak, hDk2, hsubk⟩ := hind3 k2 a1k2 o1b o2pb hb2 ho5 hheap2
                refine ⟨Ak, hDk2, fun c hc => ?_⟩
                rcases Finset.mem_union.mp (hsubk hc) with hm3 | hm3
                · rcases Finset.mem_insert.mp hm3 with rfl | hm3
                  · exact Finset.mem_union_left _ (Finset.mem_insert_self c A1i)
                  · exact Finset.mem_union_left _ (Finset.mem_insert_of_mem (hsubA hm3))
                · exact Finset.mem_union_right _ (Finset.mem_union_right _ hm3)

theorem alookup_append {α β : Type} [DecidableEq α] (c : α) (l1 l2 : List (α × β)) :
    alookup c (l1 ++ l2) =
      match alookup c l1 with
      | some x => some x
      | none => alookup c l2 := by
  induction l1 with
  | nil => simp [alookup]
  | cons hd tl ih =>
    obtain ⟨k, v⟩ := hd
    by_cases h : k = c
    · simp [alookup, h]
    · simp [alookup, h, ih]

theorem allocDict_next (h : Heap) (d : List (String × HVal)) :
    (allocDict h d).next = h.next + 1 := rfl

theorem allocDict_lookup_ne (h : Heap) (d : List (String × HVal)) {c : Nat}
    (hc : c ≠ h.next) : alookup c (allocDict h d).store = alookup c h.store := by
  show alookup c (h.store ++ [(h.next, d)]) = _
  rw [alookup_append]
  cases hl : alookup c h.store with
  | some x => rfl
  | none =>
    simp only [alookup]
    rw [if_neg (fun he => hc he.symm)]

theorem allocDict_lookup_self (h : Heap) (d : List (String × HVal))
    (hfresh : alookup h.next h.store = none) :
    alookup h.next (allocDict h d).store = some d := by
  show alookup h.next (h.store ++ [(h.next, d)]) = some d
  rw [alookup_append, hfresh]
  simp [alookup]

theorem merge_configs_impl_eq (fuel : Nat) (h : Heap) (aBase aOver : Nat) :
    merge_configs_impl fuel h aBase aOver =
      match dmGo fuel (allocDict h (heapGetD h aBase)) h.next (heapGetD h aOver) with
      | none => none
      | some h2 => some (h2, h.next) := rfl

/-! String helpers mirroring the Python standard library operations the two
modules use, implemented over character lists so that concrete runs reduce
definitionally. -/

/-- Whether the first character list is a leading segment of the second. -/
def strStarts : List Char → List Char → Bool
  | [], _ => true
  | _ :: _, [] => false
  | c :: cs, d :: ds => c = d && strStarts cs ds

/-- Whether the first character list is a trailing segment of the second. -/
def strEnds (pat s : List Char) : Bool :=
  strStarts pat.reverse s.reverse

/-- Splits a character list at its first `]`, when one exists (bracket-class
scanning for `fnmatch` patterns). -/
def findClose : List Char → Option (List Char × List Char)
  | [] => none
  | ']' :: rest => some ([], rest)
  | c :: rest =>
    match findClose rest with
    | some (cls, r) => some (c :: cls, r)
    | none => none

/-- Parses the bracket class following a `[` in an `fnmatch` pattern,
following `fnmatch.translate`: an initial `!` negates, a `]` directly after
`[` (or after `[!`) is a literal class member, and the class runs to the
next `]`; `none` when no closing `]` exists, in which case the `[` is a
literal character. -/
def parseClass (cs : List Char) : Option (Bool × List Char × List Char) :=
  match cs with
  | '!' :: rest =>
    (match rest with
     | ']' :: rest2 => (findClose rest2).map (fun pr => (true, ']' :: pr.1, pr.2))
     | _ => (findClose rest).map (fun pr => (true, pr.1, pr.2)))
  | ']' :: rest2 => (findClose rest2).map (fun pr => (false, ']' :: pr.1, pr.2))
  | _ => (findClose cs).map (fun pr => (false, pr.1, pr.2))

/-- Membership of a character in a bracket-class body, with `a-b` ranges; a
`-` at the end of the body is a literal member. -/
def charInClass (c : Char) : List Char → Bool
  | [] => false
  | a :: '-' :: b :: rest => (a ≤ c && c ≤ b) || charInClass c rest
  | a :: rest => (c = a) || charInClass c rest

/-- `fnmatch` pattern matching engine: `*` matches any run of characters,
`?` any single character, `[...]` a bracket class, anything else itself.
`fuel` bounds the recursion; `pattern length + subject length + 1` always
suffices, since every step consumes pattern or subject characters. -/
def gmatch : Nat → List Char → List Char → Bool
  | 0, _, _ => false
  | _ + 1, [], s => s.isEmpty
  | fuel + 1, '*' :: p, s =>
    gmatch fuel p s ||
      (match s with
       | [] => false
       | _ :: s' => gmatch fuel ('*' :: p) s')
  | fuel + 1, '?' :: p, s =>
    (match s with
     | [] => false
     | _ :: s' => gmatch fuel p s')
  | fuel + 1, '[' :: rest, s =>
    (match parseClass rest with
     | some (neg, cls, p') =>
       (match s with
        | [] => false
        | c :: s' => (charInClass c cls != neg) && gmatch fuel p' s')
     | none =>
       (match s with
        | [] => false
        | c :: s' => (c = '[') && gmatch fuel rest s'))
  | fuel + 1, c :: p, s =>
    (match s with
     | [] => false
     | d :: s' => (c = d) && gmatch fuel p s')

/-- Python `fnmatch.fnmatchcase(s, pat)`. -/
def fnmatchB (pat s : String) : Bool :=
  gmatch (pat.data.length + s.data.length + 1) pat.data s.data

/-- File-name match for `glob.glob(f"{config_name}.*")` as used by
`delete_config`: `fnmatch` semantics with the configuration name's own
`*`, `?` and `[...]` metacharacters interpreted, against the pattern
`f"{config_name}.*"`; as in `glob`, a file name starting with a dot is
matched only by a pattern starting with a dot.  (File names here contain
no path separators, so the directory behaviour of `glob` does not arise.) -/
def globMatch (name path : String) : Bool :=
  match path.data with
  | '.' :: _ =>
    (match (name ++ ".*").data with
     | '.' :: _ => fnmatchB (name ++ ".*") path
     | _ => false)
  | _ => fnmatchB (name ++ ".*") path

/-- Conformance checks for the glob model: metacharacters inside the
configuration name are interpreted, so several names besides `encryption`
reach the key file, while ordinary names do not. -/
theorem globMatch_metacharacters :
    globMatch "encryption" "encryption.key" = true ∧
    globMatch "*" "encryption.key" = true ∧
    globMatch "enc*" "encryption.key" = true ∧
    globMatch "?ncryption" "encryption.key" = true ∧
    globMatch "[a-f]ncryption" "encryption.key" = true ∧
    globMatch "app" "encryption.key" = false ∧
    globMatch "svc-a" "encryption.key" = false := by
  decide

/-- Last character of a character list. -/
def lastChar : List Char → Option Char
  | [] => none
  | [c] => some c
  | _ :: (c :: rest) => lastChar (c :: rest)

theorem lastChar_append (l p : List Char) (hp : p ≠ []) :
    lastChar (l ++ p) = lastChar p := by
  induction l with
  | nil => rfl
  | cons c cs ih =>
    cases hcs : cs ++ p with
    | nil => exact absurd (List.append_eq_nil.mp hcs).2 hp
    | cons d ds =>
      simp only [List.cons_append, hcs, lastChar]
      rw [← hcs, ih]

/-- No service name can make the per-service item file collide with the key
file: `f"{service}_key.enc"` ends in `c`, `encryption.key` ends in `y`. -/
theorem ak_path_ne (s : String) : s ++ "_key.enc" ≠ "encryption.key" := by
  intro h
  have h2 : (s ++ "_key.enc").data = "encryption.key".data := congrArg String.data h
  rw [String.data_append] at h2
  have h3 : lastChar (s.data ++ "_key.enc".data) = lastChar "encryption.key".data :=
    congrArg lastChar h2
  rw [lastChar_append _ _ (by decide)] at h3
  exact absurd h3 (by decide)

/-- Splits a character list at its last dot, when one exists. -/
def splitextAux : List Char → Option (List Char × List Char)
  | [] => none
  | c :: rest =>
    match splitextAux rest with
    | some (r, e) => some (c :: r, e)
    | none => if c = '.' then some ([], '.' :: rest) else none

/-- `os.path.splitext`: splits a file name into root and extension at the
last dot, the extension keeping the dot; the whole name is the root when no
dot occurs.  (The CPython special case for names consisting only of leading
dots is irrelevant to the file names arising here.) -/
def splitext (s : String) : String × String :=
  match splitextAux s.data with
  | some (r, e) => (String.mk r, String.mk e)
  | none => (s, "")

/-- Replacement engine for Python `str.replace` (all occurrences, left to
right, non-overlapping); `fuel` is the length of the subject string, which
suffices since each step consumes at least one character. -/
def replaceFuel : Nat → List Char → List Char → List Char → List Char
  | 0, s, _, _ => s
  | _ + 1, [], _, _ => []
  | fuel + 1, c :: cs, pat, rep =>
    if pat.length != 0 && strStarts pat (c :: cs) then
      rep ++ replaceFuel fuel (List.drop pat.length (c :: cs)) pat rep
    else
      c :: replaceFuel fuel cs pat rep

/-- Python `s.replace(pat, rep)`. -/
def pyReplace (s pat rep : String) : String :=
  String.mk (replaceFuel s.data.length s.data pat.data rep.data)

/-! Model of `config_manager.py` (`ConfigManager`). -/

/-- Python exceptions surfaced by the modelled code paths. -/
inductive PyErr where
  | fileNotFound
  | invalidToken
  | jsonDecodeError
  | valueError
  | attributeError
deriving DecidableEq

/-- Content of one file under the `ConfigManager` storage root, tagged by
provenance:
`key kid` — raw Fernet key bytes with identity `kid`;
`token kid v` — Fernet ciphertext, produced under key `kid`, of
`json.dumps(v).encode()`;
`jsonText v` / `yamlText v` — the plain `json.dump` / `yaml.safe_dump`
rendering of `v`;
`emptyFile` — a file created and left empty;
`corrupt s` — bytes invalid under every codec and under the cipher. -/
inductive CfgFile where
  | key (kid : Nat)
  | token (kid : Nat) (v : Json)
  | jsonText (v : Json)
  | yamlText (v : Json)
  | emptyFile
  | corrupt (s : String)

/-- A constructed `ConfigManager`: the files under `config_dir` and the key
id loaded into `cipher_suite`. -/
structure ConfigManager where
  fs : List (String × CfgFile)
  kid : Nat

/-- `ConfigManager._load_or_generate_key`, acting on the files under the
storage root; `fresh` is the key material `Fernet.generate_key()` would
produce.  The source's read of the key file is mis-indented inside the
`with open(self.key_file, 'wb')` block of the generate branch, so:
with the key file already present, `self.encryption_key` is never assigned
and `Fernet(self.encryption_key)` raises `AttributeError`;
with no key file present, the key is generated and written, but the nested
read opens the file before the 44-byte buffered write is flushed, reads
empty bytes, and `Fernet(b'')` raises `ValueError` — the key file itself is
still written when the outer `with` closes.  Either way initialization
fails; the returned pair is the resulting file map and the outcome. -/
def load_or_generate_key (fs : List (String × CfgFile)) (fresh : Nat) :
    List (String × CfgFile) × Except PyErr Nat :=
  match alookup "encryption.key" fs with
  | some _ => (fs, Except.error PyErr.attributeError)
  | none => (aset "encryption.key" (CfgFile.key fresh) fs, Except.error PyErr.valueError)

/-- `ConfigManager.save_config`: writes to `f"{config_name}.{format}"`.
With `encrypt=True` the encrypted JSON payload is written regardless of
`format`; with `encrypt=False` the file is opened for writing (created or
truncated) and the payload is written only for the `json` and `yaml`
branches — any other format identifier leaves the file empty. -/
def save_config (m : ConfigManager) (config_name : String) (config_data : Json)
    (format : String) (encrypt : Bool) : ConfigManager :=
  if encrypt then
    { m with fs := aset (config_name ++ "." ++ format) (CfgFile.token m.kid config_data) m.fs }
  else if format = "json" then
    { m with fs := aset (config_name ++ "." ++ format) (CfgFile.jsonText config_data) m.fs }
  else if format = "yaml" then
    { m with fs := aset (config_name ++ "." ++ format) (CfgFile.yamlText config_data) m.fs }
  else
    { m with fs := aset (config_name ++ "." ++ format) CfgFile.emptyFile m.fs }

/-- `ConfigManager.load_config`: raises `FileNotFoundError` when the file is
missing.  With `decrypt=True`, `cipher_suite.decrypt` succeeds exactly on
tokens produced under the loaded key (raising `InvalidToken` otherwise) and
`json.loads` inverts the `json.dumps` performed at save time.  With
`decrypt=False`, the `json` branch parses only JSON renderings, the `yaml`
branch parses YAML renderings (JSON text being valid YAML, and an empty
file parsing as Python `None`); any other format identifier falls through
both branches and the method returns `None` (`Except.ok none`). -/
def load_config (m : ConfigManager) (config_name : String) (format : String)
    (decrypt : Bool) : Except PyErr (Option Json) :=
  match alookup (config_name ++ "." ++ format) m.fs with
  | none => Except.error PyErr.fileNotFound
  | some content =>
    if decrypt then
      match content with
      | CfgFile.token kid v =>
        if kid = m.kid then Except.ok (some v) else Except.error PyErr.invalidToken
      | _ => Except.error PyErr.invalidToken
    else if format = "json" then
      match content with
      | CfgFile.jsonText v => Except.ok (some v)
      | _ => Except.error PyErr.jsonDecodeError
    else if format = "yaml" then
      match content with
      | CfgFile.yamlText v => Except.ok (some v)
      | CfgFile.jsonText v => Except.ok (some v)
      | CfgFile.emptyFile => Except.ok none
      | _ => Except.error PyErr.jsonDecodeError
    else
      Except.ok none

/-- `ConfigManager.list_configs`: for every file name except
`encryption.key`, appends `os.path.splitext(filename)` — a (root,
extension) pair, not a bare name. -/
def list_configs (m : ConfigManager) : List (String × String) :=
  (m.fs.map Prod.fst).filterMap
    (fun f => if f = "encryption.key" then none else some (splitext f))

/-- `ConfigManager.delete_config`: removes every file matching
`glob.glob(f"{config_name}.*")`. -/
def delete_config (m : ConfigManager) (config_name : String) : ConfigManager :=
  { m with fs := m.fs.filter (fun pc => !(globMatch config_name pc.1)) }

/-! Model of `api_key_manager.py` (`SecureAPIKeyManager`). -/

/-- Content of one file under the `SecureAPIKeyManager` storage root:
`key kid` — raw Fernet key bytes; `token kid apiKey` — Fernet ciphertext,
produced under key `kid`, of `api_key.encode()`; `corrupt s` — bytes that
are not a valid token under any key. -/
inductive AKFile where
  | key (kid : Nat)
  | token (kid : Nat) (apiKey : String)
  | corrupt (s : String)
deriving DecidableEq

/-- A constructed `SecureAPIKeyManager`: the files under `key_storage_path`
and the key id loaded into `cipher_suite`. -/
structure SecureAPIKeyManager where
  fs : List (String × AKFile)
  kid : Nat
deriving DecidableEq

/-- `SecureAPIKeyManager._load_encryption_key`: generates and writes the key
file if absent (the write completing before the subsequent read — the
`with` blocks here are sequential, unlike `ConfigManager`'s), then reads the
key file and builds the cipher; `Fernet` of bytes that are not valid key
material raises `ValueError`. -/
def load_encryption_key (fs : List (String × AKFile)) (fresh : Nat) :
    List (String × AKFile) × Except PyErr Nat :=
  match alookup "encryption.key" fs with
  | none =>
    match alookup "encryption.key" (aset "encryption.key" (AKFile.key fresh) fs) with
    | some (AKFile.key k) => (aset "encryption.key" (AKFile.key fresh) fs, Except.ok k)
    | some _ => (aset "encryption.key" (AKFile.key fresh) fs, Except.error PyErr.valueError)
    | none => (aset "encryption.key" (AKFile.key fresh) fs, Except.error PyErr.fileNotFound)
  | some (AKFile.key k) => (fs, Except.ok k)
  | some _ => (fs, Except.error PyErr.valueError)

/-- `SecureAPIKeyManager.store_api_key`: writes the encrypted key to
`f"{service}_key.enc"`. -/
def store_api_key (am : SecureAPIKeyManager) (service api_key : String) :
    SecureAPIKeyManager :=
  { am with fs := aset (service ++ "_key.enc") (AKFile.token am.kid api_key) am.fs }

/-- `SecureAPIKeyManager.retrieve_api_key`: returns `None` when the item
file is missing; on a decryption failure (corrupt bytes, or a token from a
different key) the exception is caught, a message is printed, and `None` is
returned as well. -/
def retrieve_api_key (am : SecureAPIKeyManager) (service : String) : Option String :=
  match alookup (service ++ "_key.enc") am.fs with
  | none => none
  | some (AKFile.token kid s) => if kid = am.kid then some s else none
  | some _ => none

/-- `SecureAPIKeyManager.list_stored_services`: collects every file name
ending in `_key.enc`, stripping the suffix via
`filename.replace('_key.enc', '')`. -/
def list_stored_services (am : SecureAPIKeyManager) : List String :=
  (am.fs.map Prod.fst).filterMap
    (fun f => if strEnds "_key.enc".data f.data then some (pyReplace f "_key.enc" "") else none)

/-- `SecureAPIKeyManager.delete_api_key`: removes `f"{service}_key.enc"`
when present. -/
def delete_api_key (am : SecureAPIKeyManager) (service : String) : SecureAPIKeyManager :=
  { am with fs := am.fs.filter (fun pc => !(pc.1 == service ++ "_key.enc")) }

/-- Outcome of the service-specific remote check inside
`validate_api_key`'s `try` block (an external network call). -/
inductive ValidationOutcome where
  | ok
  | exn
deriving DecidableEq

/-- `SecureAPIKeyManager.validate_api_key`: only `openai`, `google` and
`anthropic` trigger a remote check, whose exceptions yield `False`; every
other service name skips the whole `if/elif` chain and reaches
`return True` unconditionally. -/
def validate_api_key (service api_key : String) (outcome : ValidationOutcome) : Bool :=
  if service = "openai" ∨ service = "google" ∨ service = "anthropic" then
    match outcome with
    | ValidationOutcome.ok => true
    | ValidationOutcome.exn => false
  else
    true

/-! Operation sequences over one storage root, used to state key-file
preservation. -/

/-- One `ConfigManager` call. -/
inductive CfgOp where
  | save (name : String) (data : Json) (format : String) (encrypt : Bool)
  | load (name format : String) (decrypt : Bool)
  | listOp
  | delete (name : String)

/-- State effect of one `ConfigManager` call (`load_config` and
`list_configs` read only). -/
def cfgStep (m : ConfigManager) : CfgOp → ConfigManager
  | CfgOp.save n d f e => save_config m n d f e
  | CfgOp.load _ _ _ => m
  | CfgOp.listOp => m
  | CfgOp.delete n => delete_config m n

/-- Run a sequence of `ConfigManager` calls. -/
def cfgRun (m : ConfigManager) (ops : List CfgOp) : ConfigManager :=
  ops.foldl cfgStep m

/-- Whether a file content is raw key material. -/
def isKeyFileCfg : CfgFile → Bool
  | CfgFile.key _ => true
  | _ => false

/-- The key-file invariant for a `ConfigManager` root: `encryption.key`
holds exactly the loaded key bytes, and no other file under the root holds
key material. -/
def keyIntactCfg (m : ConfigManager) : Prop :=
  alookup "encryption.key" m.fs = some (CfgFile.key m.kid) ∧
  ∀ p c, alookup p m.fs = some c → isKeyFileCfg c = true → p = "encryption.key"

/-- Side condition under which a `ConfigManager` call leaves the key file
alone: a save must not target the path `encryption.key` itself (the
colliding call is `save_config("encryption", …, format="key")`), and a
delete's glob pattern must not match `encryption.key` (the colliding call
is `delete_config("encryption")`). -/
def cfgOpKeepsKey : CfgOp → Prop
  | CfgOp.save n _ f _ => n ++ "." ++ f ≠ "encryption.key"
  | CfgOp.delete n => globMatch n "encryption.key" = false
  | _ => True

/-- One `SecureAPIKeyManager` call. -/
inductive AKOp where
  | store (service apiKey : String)
  | retrieve (service : String)
  | listOp
  | delete (service : String)

/-- State effect of one `SecureAPIKeyManager` call. -/
def akStep (am : SecureAPIKeyManager) : AKOp → SecureAPIKeyManager
  | AKOp.store s k => store_api_key am s k
  | AKOp.retrieve _ => am
  | AKOp.listOp => am
  | AKOp.delete s => delete_api_key am s

/-- Run a sequence of `SecureAPIKeyManager` calls. -/
def akRun (am : SecureAPIKeyManager) (ops : List AKOp) : SecureAPIKeyManager :=
  ops.foldl akStep am

/-- Whether a file content is raw key material. -/
def isKeyFileAK : AKFile → Bool
  | AKFile.key _ => true
  | _ => false

/-- The key-file invariant for a `SecureAPIKeyManager` root. -/
def keyIntactAK (am : SecureAPIKeyManager) : Prop :=
  alookup "encryption.key" am.fs = some (AKFile.key am.kid) ∧
  ∀ p c, alookup p am.fs = some c → isKeyFileAK c = true → p = "encryption.key"

theorem keyIntactCfg_aset (m : ConfigManager) (path : String) (c : CfgFile)
    (hpath : path ≠ "encryption.key") (hc : isKeyFileCfg c = false)
    (h : keyIntactCfg m) : keyIntactCfg ⟨aset path c m.fs, m.kid⟩ := by
  constructor
  · show alookup "encryption.key" (aset path c m.fs) = _
    rw [alookup_aset_ne hpath]
    exact h.1
  · intro p d hp hd
    by_cases hpp : p = path
    · subst hpp
      rw [alookup_aset_self] at hp
      cases hp
      exact absurd hd (by simp [hc])
    · rw [alookup_aset_ne (fun he => hpp he.symm)] at hp
      exact h.2 p d hp hd

theorem keyIntactCfg_save (m : ConfigManager) (n : String) (d : Json) (f : String) (e : Bool)
    (hop : n ++ "." ++ f ≠ "encryption.key") (h : keyIntactCfg m) :
    keyIntactCfg (save_config m n d f e) := by
  unfold save_config
  split
  · exact keyIntactCfg_aset m _ _ hop rfl h
  · split
    · exact keyIntactCfg_aset m _ _ hop rfl h
    · split
      · exact keyIntactCfg_aset m _ _ hop rfl h
      · exact keyIntactCfg_aset m _ _ hop rfl h

theorem keyIntactCfg_delete (m : ConfigManager) (n : String)
    (hop : globMatch n "encryption.key" = false) (h : keyIntactCfg m) :
    keyIntactCfg (delete_config m n) := by
  unfold delete_config
  constructor
  · show alookup "encryption.key" (m.fs.filter _) = _
    rw [alookup_filter (fun p => !(globMatch n p))]
    simp only [hop, Bool.not_false, if_pos]
    exact h.1
  · intro p c hp hc
    rw [alookup_filter (fun p => !(globMatch n p))] at hp
    by_cases hq : (!(globMatch n p)) = true
    · rw [if_pos hq] at hp
      exact h.2 p c hp hc
    · rw [if_neg hq] at hp
      cases hp

theorem keyIntactCfg_step (m : ConfigManager) (op : CfgOp)
    (hop : cfgOpKeepsKey op) (h : keyIntactCfg m) : keyIntactCfg (cfgStep m op) := by
  cases op with
  | save n d f e => exact keyIntactCfg_save m n d f e hop h
  | load n f d => exact h
  | listOp => exact h
  | delete n => exact keyIntactCfg_delete m n hop h

theorem keyIntactCfg_run (ops : List CfgOp) (m : ConfigManager)
    (h : keyIntactCfg m) (hops : ∀ op ∈ ops, cfgOpKeepsKey op) :
    keyIntactCfg (cfgRun m ops) := by
  induction ops generalizing m with
  | nil => exact h
  | cons op rest ih =>
    simp only [cfgRun, List.foldl_cons]
    exact ih (cfgStep m op)
      (keyIntactCfg_step m op (hops op (List.mem_cons_self op rest)) h)
      (fun o ho => hops o (List.mem_cons_of_mem op ho))

theorem cfgStep_kid (m : ConfigManager) (op : CfgOp) : (cfgStep m op).kid = m.kid := by
  cases op with
  | save n d f e =>
    show (save_config m n d f e).kid = m.kid
    unfold save_config
    split
    · rfl
    · split
      · rfl
      · split <;> rfl
  | load n f d => rfl
  | listOp => rfl
  | delete n => rfl

theorem cfgRun_kid (ops : List CfgOp) (m : ConfigManager) : (cfgRun m ops).kid = m.kid := by
  induction ops generalizing m with
  | nil => rfl
  | cons op rest ih =>
    simp only [cfgRun, List.foldl_cons]
    rw [show (List.foldl cfgStep (cfgStep m op) rest) = cfgRun (cfgStep m op) rest from rfl,
      ih (cfgStep m op), cfgStep_kid]

theorem keyIntactAK_aset (am : SecureAPIKeyManager) (path : String) (c : AKFile)
    (hpath : path ≠ "encryption.key") (hc : isKeyFileAK c = false)
    (h : keyIntactAK am) : keyIntactAK ⟨aset path c am.fs, am.kid⟩ := by
  constructor
  · show alookup "encryption.key" (aset path c am.fs) = _
    rw [alookup_aset_ne hpath]
    exact h.1
  · intro p d hp hd
    by_cases hpp : p = path
    · subst hpp
      rw [alookup_aset_self] at hp
      cases hp
      exact absurd hd (by simp [hc])
    · rw [alookup_aset_ne (fun he => hpp he.symm)] at hp
      exact h.2 p d hp hd

theorem keyIntactAK_store (am : SecureAPIKeyManager) (s k : String)
    (h : keyIntactAK am) : keyIntactAK (store_api_key am s k) :=
  keyIntactAK_aset am _ _ (ak_path_ne s) rfl h

theorem keyIntactAK_delete (am : SecureAPIKeyManager) (s : String)
    (h : keyIntactAK am) : keyIntactAK (delete_api_key am s) := by
  unfold delete_api_key
  constructor
  · show alookup "encryption.key" (am.fs.filter _) = _
    rw [alookup_filter (fun p => !(p == s ++ "_key.enc"))]
    have hne : ("encryption.key" == s ++ "_key.enc") = false :=
      beq_eq_false_iff_ne.mpr (fun he => ak_path_ne s he.symm)
    simp only [hne, Bool.not_false, if_pos]
    exact h.1
  · intro p c hp hc
    rw [alookup_filter (fun p => !(p == s ++ "_key.enc"))] at hp
    by_cases hq : (!(p == s ++ "_key.enc")) = true
    · rw [if_pos hq] at hp
      exact h.2 p c hp hc
    · rw [if_neg hq] at hp
      cases hp

theorem keyIntactAK_run (ops : List AKOp) (am : SecureAPIKeyManager)
    (h : keyIntactAK am) : keyIntactAK (akRun am ops) := by
  induction ops generalizing am with
  | nil => exact h
  | cons op rest ih =>
    simp only [akRun, List.foldl_cons]
    refine ih (akStep am op) ?_
    cases op with
    | store s k => exact keyIntactAK_store am s k h
    | retrieve s => exact h
    | listOp => exact h
    | delete s => exact keyIntactAK_delete am s h

theorem akStep_kid (am : SecureAPIKeyManager) (op : AKOp) : (akStep am op).kid = am.kid := by
  cases op <;> rfl

theorem akRun_kid (ops : List AKOp) (am : SecureAPIKeyManager) :
    (akRun am ops).kid = am.kid := by
  induction ops generalizing am with
  | nil => rfl
  | cons op rest ih =>
    simp only [akRun, List.foldl_cons]
    rw [show (List.foldl akStep (akStep am op) rest) = akRun (akStep am op) rest from rfl,
      ih (akStep am op), akStep_kid]

/-! Claim theorems. -/

/-- C1: Key Vault initialization idempotence.  `SecureAPIKeyManager`'s key
loading is idempotent — a second `_load_encryption_key` run against the
root left by a first run changes nothing and returns the same key — but
`ConfigManager._load_or_generate_key` never succeeds at all: with the key
file present it raises `AttributeError` (the read of the key file is
mis-indented inside the generate branch, so `self.encryption_key` is never
assigned), and on a fresh root it reads the not-yet-flushed key file as
empty bytes and `Fernet` raises `ValueError`.  The claim's statement that
every subsequent initialization succeeds is therefore a bug in
`config_manager.py`, contradicting both its docstring and the spec. -/
theorem c1_key_vault_init :
    (∀ (fs : List (String × AKFile)) (f1 f2 : Nat),
      load_encryption_key (load_encryption_key fs f1).1 f2 = load_encryption_key fs f1) ∧
    (∀ (fs : List (String × CfgFile)) (fresh : Nat),
      ∃ e, (load_or_generate_key fs fresh).2 = Except.error e) := by
  constructor
  · intro fs f1 f2
    cases h : alookup "encryption.key" fs with
    | none => simp [load_encryption_key, h, alookup_aset_self]
    | some c => cases c <;> simp [load_encryption_key, h]
  · intro fs fresh
    cases h : alookup "encryption.key" fs with
    | none => exact ⟨PyErr.valueError, by simp [load_or_generate_key, h]⟩
    | some c => exact ⟨PyErr.attributeError, by simp [load_or_generate_key, h]⟩

/-- Storage root used for the C2 counterexample: an initialized
`ConfigManager` whose key file holds key 7. -/
def c2m : ConfigManager := ⟨[("encryption.key", CfgFile.key 7)], 7⟩

/-- C2 counterexample: `delete_config("encryption")` deletes the key file —
its glob pattern `encryption.*` matches `encryption.key` — refuting the
claim that no operation with any configuration name removes it. -/
theorem c2_delete_config_removes_key_file :
    alookup "encryption.key" c2m.fs = some (CfgFile.key 7) ∧
    alookup "encryption.key" (delete_config c2m "encryption").fs = none :=
  ⟨rfl, rfl⟩

/-- C2 (amended): over any sequence of store/retrieve/list/delete calls in
which no `delete_config` uses a name whose glob pattern reaches the key
file and no `save_config` targets the path `encryption.key` itself, the key
file survives with unchanged bytes and stays the only key material under
the root; `SecureAPIKeyManager` sequences need no side condition, since
`f"{service}_key.enc"` can never collide with `encryption.key`. -/
theorem c2_key_file_preserved (m : ConfigManager) (ops : List CfgOp)
    (am : SecureAPIKeyManager) (aops : List AKOp)
    (hm : keyIntactCfg m) (hops : ∀ op ∈ ops, cfgOpKeepsKey op) (ham : keyIntactAK am) :
    (alookup "encryption.key" (cfgRun m ops).fs = some (CfgFile.key m.kid) ∧
      keyIntactCfg (cfgRun m ops)) ∧
    (alookup "encryption.key" (akRun am aops).fs = some (AKFile.key am.kid) ∧
      keyIntactAK (akRun am aops)) := by
  have h1 := keyIntactCfg_run ops m hm hops
  have h2 := keyIntactAK_run aops am ham
  refine ⟨⟨?_, h1⟩, ?_, h2⟩
  · rw [h1.1, cfgRun_kid]
  · rw [h2.1, akRun_kid]

/-- Operations used by the C2 witness. -/
def c2ops : List CfgOp := [CfgOp.save "app" (Json.num 1) "json" true, CfgOp.delete "app"]

/-- Storage root used by the C2 witness on the API-key side. -/
def c2am : SecureAPIKeyManager := ⟨[("encryption.key", AKFile.key 3)], 3⟩

/-- Operations used by the C2 witness on the API-key side. -/
def c2aops : List AKOp := [AKOp.store "svc" "sk-123", AKOp.delete "svc"]

/-- C2 witness: a concrete save/delete sequence on each root leaves both
key files in place with their original bytes. -/
theorem c2_key_file_preserved_witness :
    alookup "encryption.key" (cfgRun c2m c2ops).fs = some (CfgFile.key 7) ∧
    alookup "encryption.key" (akRun c2am c2aops).fs = some (AKFile.key 3) := by
  have hm : keyIntactCfg c2m := by
    refine ⟨rfl, ?_⟩
    intro p c hp hc
    by_cases hpk : "encryption.key" = p
    · exact hpk.symm
    · simp [c2m, alookup, hpk] at hp
  have hops : ∀ op ∈ c2ops, cfgOpKeepsKey op := by
    intro op hop
    simp only [c2ops, List.mem_cons, List.not_mem_nil, or_false] at hop
    rcases hop with rfl | rfl
    · exact (by decide : ("app" ++ "." ++ "json" : String) ≠ "encryption.key")
    · exact (by decide : globMatch "app" "encryption.key" = false)
  have ham : keyIntactAK c2am := by
    refine ⟨rfl, ?_⟩
    intro p c hp hc
    by_cases hpk : "encryption.key" = p
    · exact hpk.symm
    · simp [c2am, alookup, hpk] at hp
  have h := c2_key_file_preserved c2m c2ops c2am c2aops hm hops ham
  exact ⟨h.1.1, h.2.1⟩

/-- Storage root used for C3: the item file for service `svc` holds bytes
that are not a valid token. -/
def c3am : SecureAPIKeyManager :=
  ⟨[("encryption.key", AKFile.key 1), ("svc_key.enc", AKFile.corrupt "garbage")], 1⟩

/-- C3 counterexample: on an item whose persisted bytes fail to decrypt,
`retrieve_api_key` does not surface an error — it returns `None`, exactly
the result it gives for a missing item. -/
theorem c3_corrupt_same_as_missing :
    retrieve_api_key c3am "svc" = none ∧ retrieve_api_key c3am "other" = none :=
  ⟨rfl, rfl⟩

/-- Configuration root used for C3: the file `app.json` holds undecryptable
bytes. -/
def c3cm : ConfigManager :=
  ⟨[("encryption.key", CfgFile.key 1), ("app.json", CfgFile.corrupt "garbage")], 1⟩

/-- C3 (amended): on persisted bytes that fail to decrypt,
`retrieve_api_key` catches the failure and returns `None` —
indistinguishable from a missing item — while `load_config` propagates the
underlying cipher error (`InvalidToken`) unwrapped; no `CorruptItemError`
exists in the code.  Neither path returns partially-decoded data. -/
theorem c3_corrupt_item_behavior :
    (∀ (am : SecureAPIKeyManager) (service junk : String),
      alookup (service ++ "_key.enc") am.fs = some (AKFile.corrupt junk) →
      retrieve_api_key am service = none) ∧
    (∀ (m : ConfigManager) (name format junk : String),
      alookup (name ++ "." ++ format) m.fs = some (CfgFile.corrupt junk) →
      load_config m name format true = Except.error PyErr.invalidToken) := by
  constructor
  · intro am s junk h
    simp [retrieve_api_key, h]
  · intro m n f junk h
    simp [load_config, h]

/-- C3 witness: both amended behaviours at concrete corrupt items. -/
theorem c3_corrupt_item_behavior_witness :
    retrieve_api_key c3am "svc" = none ∧
    load_config c3cm "app" "json" true = Except.error PyErr.invalidToken :=
  ⟨c3_corrupt_item_behavior.1 c3am "svc" "garbage" rfl,
   c3_corrupt_item_behavior.2 c3cm "app" "json" "garbage" rfl⟩

/-- Configuration root used for C4: initialized, no stored items. -/
def c4m : ConfigManager := ⟨[("encryption.key", CfgFile.key 1)], 1⟩

/-- C4 counterexample: `load_config` on a name with no matching file raises
`FileNotFoundError` instead of returning an absent result normally. -/
theorem c4_load_config_missing_raises :
    load_config c4m "app" "json" true = Except.error PyErr.fileNotFound :=
  rfl

/-- C4 (amended): for a name with no matching file, `retrieve_api_key`
returns `None` normally, but `load_config` raises `FileNotFoundError` — the
absent-is-normal half of the claim holds only for the API-key manager. -/
theorem c4_missing_item_behavior :
    (∀ (am : SecureAPIKeyManager) (service : String),
      alookup (service ++ "_key.enc") am.fs = none →
      retrieve_api_key am service = none) ∧
    (∀ (m : ConfigManager) (name format : String) (decrypt : Bool),
      alookup (name ++ "." ++ format) m.fs = none →
      load_config m name format decrypt = Except.error PyErr.fileNotFound) := by
  constructor
  · intro am s h
    simp [retrieve_api_key, h]
  · intro m n f d h
    simp [load_config, h]

/-- API-key root used by the C4 witness: initialized, no stored items. -/
def c4am : SecureAPIKeyManager := ⟨[("encryption.key", AKFile.key 1)], 1⟩

/-- C4 witness: both amended behaviours at a concrete empty root. -/
theorem c4_missing_item_behavior_witness :
    retrieve_api_key c4am "svc" = none ∧
    load_config c4m "app" "json" true = Except.error PyErr.fileNotFound :=
  ⟨c4_missing_item_behavior.1 c4am "svc" rfl,
   c4_missing_item_behavior.2 c4m "app" "json" true rfl⟩

/-- Heap used for C5: the base mapping `{"b": {"y": 2}}` lives at address 0
with its nested mapping at address 1; the overlay `{"b": {"y": 9}}` lives
at address 2 with its nested mapping at address 3. -/
def c5heap0 : Heap :=
  ⟨[(0, [("b", HVal.ref 1)]), (1, [("y", HVal.int 2)]),
    (2, [("b", HVal.ref 3)]), (3, [("y", HVal.int 9)])], 4⟩

/-- C5 counterexample: `merge_configs` mutates its base input — after the
merge, the base's nested mapping (heap address 1) holds `{"y": 9}` where it
held `{"y": 2}` before, because `base.copy()` is shallow and `deep_merge`
updates the shared nested dictionary in place. -/
theorem c5_merge_mutates_base_nested :
    heapGetD c5heap0 1 = [("y", HVal.int 2)] ∧
    (merge_configs_impl 10 c5heap0 0 2).map (fun p => heapGetD p.1 1) =
      some [("y", HVal.int 9)] ∧
    some ([("y", HVal.int 9)] : List (String × HVal)) ≠ some [("y", HVal.int 2)] := by
  exact ⟨rfl, rfl, by decide⟩

/-- C5 (amended): for every pair of decoded base and overlay mapping
values laid out without sharing in the heap (the tree-shaped layouts
`json.loads` produces; sequences are assigned wholesale exactly like
scalars and never entered, so scalar-and-mapping trees carry all merging
behaviour), `merge_configs` succeeds and returns a freshly allocated
top-level mapping; the overlay's objects and the base's own top-level
object are byte-for-byte untouched (in particular the overlay still lays
out its original value); the returned mapping holds exactly
`deep_merge base overlay`; and wherever both sides held mappings under a
common key, the base's own nested object now holds the recursively merged
mapping in place — so the base input is mutated, as the counterexample
exhibits concretely. -/
theorem c5_merge_mutation_universal
    (h : Heap) (aBase aOver : Nat) (b o : List (String × Json)) (AB AO : Finset Nat)
    (fuel : Nat)
    (hB : LayD h [] aBase b AB)
    (hO : LayD h [] aOver o AO)
    (hdisj : Disjoint AB AO)
    (hfB : h.next ∉ AB) (hfO : h.next ∉ AO)
    (hfresh : alookup h.next h.store = none)
    (hfuel : sizeOf o + 1 ≤ fuel) :
    ∃ h2 A3,
      merge_configs_impl fuel h aBase aOver = some (h2, h.next) ∧
      alookup h.next h.store = none ∧
      alookup aBase h2.store = alookup aBase h.store ∧
      (∀ c ∈ AO, alookup c h2.store = alookup c h.store) ∧
      LayD h2 [] aOver o AO ∧
      LayD h2 [] h.next (deep_merge b o) A3 ∧
      A3 ⊆ insert h.next (AB ∪ AO) ∧
      (∀ k a1k o1 o2p, alookup k b = some (Json.obj o1) →
        alookup k o = some (Json.obj o2p) →
        alookup k (heapGetD h aBase) = some (HVal.ref a1k) →
        ∃ Ak, LayD h2 [] a1k (deep_merge o1 o2p) Ak ∧
          Ak ⊆ insert h.next (AB ∪ AO)) := by
  obtain ⟨esB, ABi, hlB, hEB, haB, rfl⟩ := hB
  obtain ⟨esO, AOi, hlO, hEO, haO, rfl⟩ := hO
  have haBne : aBase ≠ h.next := fun he => hfB (he ▸ Finset.mem_insert_self aBase ABi)
  have haOne : aOver ≠ h.next := fun he => hfO (he ▸ Finset.mem_insert_self aOver AOi)
  set h1 := allocDict h esB with hh1
  have hag1 : ∀ (X : Finset Nat), h.next ∉ X → agreeOn h h1 X := by
    intro X hX c hc
    exact allocDict_lookup_ne h esB (fun he => hX (by rw [← he]; exact hc))
  have hBi : h.next ∉ ABi := fun hc => hfB (Finset.mem_insert_of_mem hc)
  have hOi : h.next ∉ AOi := fun hc => hfO (Finset.mem_insert_of_mem hc)
  have hlB1 : alookup h.next h1.store = some esB := allocDict_lookup_self h esB hfresh
  have hlO1 : alookup aOver h1.store = some esO := by
    rw [allocDict_lookup_ne h esB haOne]; exact hlO
  have hEB1 : LayEsK h1 [] esB b ABi := LayEsK_frame (hag1 ABi hBi) hEB
  have hEO1 : LayEsK h1 [] esO o AOi := LayEsK_frame (hag1 AOi hOi) hEO
  have hDc : LayD h1 [] h.next b (insert h.next ABi) := ⟨esB, ABi, hlB1, hEB1, hBi, rfl⟩
  have hdisj1 : Disjoint (insert h.next ABi) AOi := by
    refine Finset.disjoint_left.mpr (fun c hc hc2 => ?_)
    rcases Finset.mem_insert.mp hc with rfl | hc
    · exact hOi hc2
    · exact Finset.disjoint_left.mp hdisj (Finset.mem_insert_of_mem hc)
        (Finset.mem_insert_of_mem hc2)
  obtain ⟨h2, hrun, hnext2, hframe, ⟨A3, hD3, hsub3⟩, hpres, hind⟩ :=
    dmGo_simK (sizeOf o) o le_rfl esO AOi h1 h.next [] b (insert h.next ABi) fuel
      hDc hEO1 (fun k2 _ => List.not_mem_nil k2) hdisj1 hfuel
  have hframe2 : ∀ c, c ≠ h.next → c ∉ ABi → alookup c h2.store = alookup c h.store := by
    intro c hc1 hc2
    have : c ∉ insert h.next ABi := fun hm => by
      rcases Finset.mem_insert.mp hm with rfl | hm
      · exact hc1 rfl
      · exact hc2 hm
    rw [hframe c this]
    exact allocDict_lookup_ne h esB hc1
  have hovU : ∀ c ∈ insert aOver AOi, alookup c h2.store = alookup c h.store := by
    intro c hc
    have hcne : c ≠ h.next := fun he => hfO (he ▸ hc)
    have hcB : c ∉ ABi := fun hm =>
      Finset.disjoint_left.mp hdisj (Finset.mem_insert_of_mem hm) hc
    exact hframe2 c hcne hcB
  refine ⟨h2, A3, ?_, hfresh, ?_, hovU, ?_, hD3, ?_, ?_⟩
  · rw [merge_configs_impl_eq, heapGetD_eq hlB, heapGetD_eq hlO, ← hh1, hrun]
  · exact hframe2 aBase haBne haB
  · exact LayD_frame (fun c hc => hovU c hc) ⟨esO, AOi, hlO, hEO, haO, rfl⟩
  · intro c hc
    rcases Finset.mem_union.mp (hsub3 hc) with hm | hm
    · rcases Finset.mem_insert.mp hm with rfl | hm
      · exact Finset.mem_insert_self _ _
      · exact Finset.mem_insert_of_mem
          (Finset.mem_union_left _ (Finset.mem_insert_of_mem hm))
    · exact Finset.mem_insert_of_mem
        (Finset.mem_union_right _ (Finset.mem_insert_of_mem hm))
  · intro k a1k o1 o2p hb ho hheap
    rw [heapGetD_eq hlB] at hheap
    have hheap1 : alookup k (heapGetD h1 h.next) = some (HVal.ref a1k) := by
      rw [heapGetD_eq hlB1]; exact hheap
    obtain ⟨Ak, hDk, hsubk⟩ := hind k a1k o1 o2p hb ho hheap1
    refine ⟨Ak, hDk, fun c hc => ?_⟩
    rcases Finset.mem_union.mp (hsubk hc) with hm | hm
    · rcases Finset.mem_insert.mp hm with rfl | hm
      · exact Finset.mem_insert_self _ _
      · exact Finset.mem_insert_of_mem
          (Finset.mem_union_left _ (Finset.mem_insert_of_mem hm))
    · exact Finset.mem_insert_of_mem
        (Finset.mem_union_right _ (Finset.mem_insert_of_mem hm))

/-- Pure value of the C5 base mapping. -/
def c5base : List (String × Json) := [("b", Json.obj [("y", Json.num 2)])]

/-- Pure value of the C5 overlay mapping. -/
def c5overlay : List (String × Json) := [("b", Json.obj [("y", Json.num 9)])]

/-- The nested base dictionary at address 1 lays out its pure entries. -/
theorem c5_layEs_inner2 :
    LayEsK c5heap0 [] [("y", HVal.int 2)] [("y", Json.num 2)] ∅ := by
  unfold LayEsK
  refine ⟨rfl, by simp, ?_⟩
  rw [if_neg (List.not_mem_nil "y")]
  refine ⟨∅, ∅, by unfold LayV; exact ⟨rfl, rfl⟩, ?_, by simp, by simp⟩
  unfold LayEsK
  rfl

/-- The base of the C5 example is laid out at address 0 with footprint 0, 1. -/
theorem c5_layB : LayD c5heap0 [] 0 c5base (insert 0 (insert 1 ∅)) := by
  refine ⟨[("b", HVal.ref 1)], insert 1 ∅, rfl, ?_, by decide, rfl⟩
  unfold c5base LayEsK
  refine ⟨rfl, by simp, ?_⟩
  rw [if_neg (List.not_mem_nil "b")]
  refine ⟨insert 1 ∅, ∅, ?_, by unfold LayEsK; rfl, by simp, by simp⟩
  unfold LayV
  exact ⟨1, [("y", HVal.int 2)], ∅, rfl, rfl, c5_layEs_inner2, by simp, by simp⟩

/-- The overlay of the C5 example is laid out at address 2 with footprint 2, 3. -/
theorem c5_layO : LayD c5heap0 [] 2 c5overlay (insert 2 (insert 3 ∅)) := by
  refine ⟨[("b", HVal.ref 3)], insert 3 ∅, rfl, ?_, by decide, rfl⟩
  unfold c5overlay LayEsK
  refine ⟨rfl, by simp, ?_⟩
  rw [if_neg (List.not_mem_nil "b")]
  refine ⟨insert 3 ∅, ∅, ?_, by unfold LayEsK; rfl, by simp, by simp⟩
  unfold LayV
  refine ⟨3, [("y", HVal.int 9)], ∅, rfl, rfl, ?_, by simp, by simp⟩
  unfold LayEsK
  refine ⟨rfl, by simp, ?_⟩
  rw [if_neg (List.not_mem_nil "y")]
  refine ⟨∅, ∅, by unfold LayV; exact ⟨rfl, rfl⟩, by unfold LayEsK; rfl, by simp, by simp⟩

/-- C5 witness: the universal theorem applied to the counterexample heap —
the merge returns fresh address 4, leaves the overlay objects and the
base top-level object untouched, lays out the deep merge at the result,
and leaves the base's nested object at address 1 holding the merged
mapping. -/
theorem c5_merge_mutation_universal_witness :
    ∃ hf A3 Ak, merge_configs_impl 1000 c5heap0 0 2 = some (hf, 4) ∧
      alookup 2 hf.store = alookup 2 c5heap0.store ∧
      alookup 3 hf.store = alookup 3 c5heap0.store ∧
      alookup 0 hf.store = alookup 0 c5heap0.store ∧
      LayD hf [] 4 (deep_merge c5base c5overlay) A3 ∧
      LayD hf [] 1 (deep_merge [("y", Json.num 2)] [("y", Json.num 9)]) Ak := by
  obtain ⟨h2, A3, hrun, _, hbase, hov, _, hD3, _, hind⟩ :=
    c5_merge_mutation_universal c5heap0 0 2 c5base c5overlay
      (insert 0 (insert 1 ∅)) (insert 2 (insert 3 ∅)) 1000 c5_layB c5_layO
      (Finset.disjoint_iff_inter_eq_empty.mpr (by decide))
      (by decide) (by decide) rfl (by decide)
  obtain ⟨Ak, hDk, _⟩ := hind "b" 1 [("y", Json.num 2)] [("y", Json.num 9)] rfl rfl rfl
  exact ⟨h2, A3, Ak, hrun, hov 2 (by decide), hov 3 (by decide), hbase, hD3, hDk⟩

/-- Base mapping of the spec's merge example. -/
def c6base : List (String × Json) :=
  [("a", Json.num 1), ("b", Json.obj [("x", Json.num 1), ("y", Json.num 2)])]

/-- Overlay mapping of the spec's merge example. -/
def c6overlay : List (String × Json) :=
  [("b", Json.obj [("y", Json.num 9), ("z", Json.num 3)]), ("c", Json.num 4)]

/-- Expected merge of the spec's example. -/
def c6merged : List (String × Json) :=
  [("a", Json.num 1),
   ("b", Json.obj [("x", Json.num 1), ("y", Json.num 9), ("z", Json.num 3)]),
   ("c", Json.num 4)]

/-- Heap carrying the spec's merge example, for the imperative run: base at
address 0 (nested mapping at 1), overlay at address 2 (nested at 3). -/
def c6heap0 : Heap :=
  ⟨[(0, [("a", HVal.int 1), ("b", HVal.ref 1)]),
    (1, [("x", HVal.int 1), ("y", HVal.int 2)]),
    (2, [("b", HVal.ref 3), ("c", HVal.int 4)]),
    (3, [("y", HVal.int 9), ("z", HVal.int 3)])], 4⟩

/-- C6: the merge result follows the deep-merge algorithm — every overlay
key maps to the recursive merge when both sides hold mappings and to the
overlay value otherwise, base-only keys keep their base values (first
conjunct, for overlays without duplicate keys, as Python dictionaries);
the spec's example evaluates as claimed both for the value-level recursion
and for the imperative heap run of `merge_configs`. -/
theorem c6_deep_merge_follows_spec :
    (∀ (d1 d2 : List (String × Json)), (d2.map Prod.fst).Nodup → ∀ k,
      alookup k (deep_merge d1 d2) =
        match alookup k d2, alookup k d1 with
        | some (Json.obj o2), some (Json.obj o1) => some (Json.obj (deep_merge o1 o2))
        | some v, _ => some v
        | none, _ => alookup k d1) ∧
    deep_merge c6base c6overlay = c6merged ∧
    (merge_configs_impl 10 c6heap0 0 2).map
        (fun p => (heapGetD p.1 p.2, heapGetD p.1 1)) =
      some ([("a", HVal.int 1), ("b", HVal.ref 1), ("c", HVal.int 4)],
            [("x", HVal.int 1), ("y", HVal.int 9), ("z", HVal.int 3)]) := by
  refine ⟨fun d1 d2 h k => alookup_deep_merge d2 h d1 k, ?_, by decide⟩
  simp [c6base, c6overlay, c6merged, deep_merge, aset, alookup, asObj]

/-- C6 witness: the lookup characterisation applied to the spec's example
at key `b`, where both sides hold mappings and the recursive merge wins. -/
theorem c6_deep_merge_follows_spec_witness :
    alookup "b" (deep_merge c6base c6overlay) =
      some (Json.obj (deep_merge [("x", Json.num 1), ("y", Json.num 2)]
        [("y", Json.num 9), ("z", Json.num 3)])) := by
  have h := c6_deep_merge_follows_spec.1 c6base c6overlay (by decide) "b"
  simpa [c6base, c6overlay, alookup] using h

/-- Configuration root used by the C7 witness. -/
def c7m : ConfigManager := ⟨[("encryption.key", CfgFile.key 2)], 2⟩

/-- API-key root used by the C7 witness. -/
def c7am : SecureAPIKeyManager := ⟨[("encryption.key", AKFile.key 2)], 2⟩

/-- C7: store/retrieve round-trip — for every name, payload, supported
format and encryption flag, loading with the same name and flags right
after saving returns the stored payload exactly; likewise
`retrieve_api_key` right after `store_api_key` returns the stored key. -/
theorem c7_store_retrieve_roundtrip :
    (∀ (m : ConfigManager) (name : String) (data : Json) (format : String) (encrypt : Bool),
      format = "json" ∨ format = "yaml" →
      load_config (save_config m name data format encrypt) name format encrypt =
        Except.ok (some data)) ∧
    (∀ (am : SecureAPIKeyManager) (service api_key : String),
      retrieve_api_key (store_api_key am service api_key) service = some api_key) := by
  constructor
  · intro m n d f e hf
    cases e
    · rcases hf with rfl | rfl <;>
        simp [save_config, load_config, alookup_aset_self]
    · simp [save_config, load_config, alookup_aset_self]
  · intro am s k
    simp [store_api_key, retrieve_api_key, alookup_aset_self]

/-- C7 witness: concrete round-trips through both stores. -/
theorem c7_store_retrieve_roundtrip_witness :
    load_config (save_config c7m "app" (Json.num 5) "json" true) "app" "json" true =
      Except.ok (some (Json.num 5)) ∧
    retrieve_api_key (store_api_key c7am "svc" "sek-1") "svc" = some "sek-1" :=
  ⟨c7_store_retrieve_roundtrip.1 c7m "app" (Json.num 5) "json" true (Or.inl rfl),
   c7_store_retrieve_roundtrip.2 c7am "svc" "sek-1"⟩

/-- Configuration root used for C8. -/
def c8m : ConfigManager := ⟨[("encryption.key", CfgFile.key 1)], 1⟩

/-- API-key root used for C8. -/
def c8am : SecureAPIKeyManager := ⟨[("encryption.key", AKFile.key 1)], 1⟩

/-- C8: after storing `svc-a` and `svc-b` and deleting `svc-a`,
`list_stored_services` returns exactly `["svc-b"]` as the claim says, but
`list_configs` returns the `os.path.splitext` pair `("svc-b", ".json")` —
name-with-extension tuples, not the configuration names its own docstring
(`Returns: List[str]: Configuration names`) and the claim promise. -/
theorem c8_list_outputs :
    list_configs (delete_config
        (save_config (save_config c8m "svc-a" (Json.num 1) "json" false)
          "svc-b" (Json.num 2) "json" false) "svc-a") = [("svc-b", ".json")] ∧
    list_stored_services (delete_api_key
        (store_api_key (store_api_key c8am "svc-a" "ka") "svc-b" "kb") "svc-a") =
      ["svc-b"] :=
  ⟨rfl, rfl⟩

/-- Configuration root used for C9. -/
def c9m : ConfigManager := ⟨[("encryption.key", CfgFile.key 1)], 1⟩

/-- C9 counterexample: with the unsupported format `xml`, `save_config`
silently creates an empty file and `load_config` returns `None` — no
`UnsupportedFormatError` (which does not exist in the code) and no error at
all. -/
theorem c9_unsupported_format_no_error :
    alookup ("app" ++ "." ++ "xml") (save_config c9m "app" (Json.num 1) "xml" false).fs =
      some CfgFile.emptyFile ∧
    load_config (save_config c9m "app" (Json.num 1) "xml" false) "app" "xml" false =
      Except.ok none :=
  ⟨rfl, rfl⟩

/-- C9 (amended): format identifiers outside `json`/`yaml` are not
rejected: `save_config` with `encrypt=False` writes an empty file, with
`encrypt=True` it writes the encrypted payload regardless of format, and
`load_config` with `decrypt=False` falls through both format branches and
returns `None`; no error is raised in any of these paths. -/
theorem c9_unsupported_format_behavior :
    ∀ (m : ConfigManager) (name : String) (data : Json) (format : String),
      format ≠ "json" → format ≠ "yaml" →
      alookup (name ++ "." ++ format) (save_config m name data format false).fs =
        some CfgFile.emptyFile ∧
      load_config (save_config m name data format false) name format false =
        Except.ok none ∧
      alookup (name ++ "." ++ format) (save_config m name data format true).fs =
        some (CfgFile.token m.kid data) := by
  intro m n d f hj hy
  refine ⟨?_, ?_, ?_⟩
  · simp [save_config, hj, hy, alookup_aset_self]
  · simp [save_config, load_config, hj, hy, alookup_aset_self]
  · simp [save_config, alookup_aset_self]

/-- C9 witness: the amended behaviour at the concrete format `xml`. -/
theorem c9_unsupported_format_behavior_witness :
    alookup ("app" ++ "." ++ "xml") (save_config c9m "app" (Json.num 1) "xml" false).fs =
      some CfgFile.emptyFile ∧
    load_config (save_config c9m "app" (Json.num 1) "xml" false) "app" "xml" false =
      Except.ok none ∧
    alookup ("app" ++ "." ++ "xml") (save_config c9m "app" (Json.num 1) "xml" true).fs =
      some (CfgFile.token 1 (Json.num 1)) :=
  c9_unsupported_format_behavior c9m "app" (Json.num 1) "xml" (by decide) (by decide)

/-- C10: for every service identifier other than `openai`, `google` and
`anthropic`, `validate_api_key` skips the whole `if/elif` chain and returns
`True` for every candidate key, whatever the external outcome — it performs
no check at all. -/
theorem c10_validate_unknown_service :
    ∀ (service api_key : String) (outcome : ValidationOutcome),
      service ≠ "openai" → service ≠ "google" → service ≠ "anthropic" →
      validate_api_key service api_key outcome = true := by
  intro s k o h1 h2 h3
  simp [validate_api_key, h1, h2, h3]

/-- C10 witness: an unknown service with a failing external outcome still
validates as `True`. -/
theorem c10_validate_unknown_service_witness :
    validate_api_key "mistral" "not-a-key" ValidationOutcome.exn = true :=
  c10_validate_unknown_service "mistral" "not-a-key" ValidationOutcome.exn
    (by decide) (by decide) (by decide)

end LangBois
